import Mathlib

/-!
Shallow embedding of the sirpi backend (Python, `src/backend/src`) in Lean 4.

Modelling conventions:
* a Python `str` is a `List Char` (`PyStr`);
* `None`-able values are `Option`s;
* Python dicts (which preserve insertion order) are association lists;
* code that raises is modelled with `Option`/`Except` or an explicit
  success flag, mirroring the `try`/`except` structure of the source.

Each definition carries a comment naming the source function it embeds.
-/

/-- Python `str` modelled as a list of characters. -/
abbrev PyStr := List Char

/-- Lean string literal viewed as a Python string. -/
def pstr (s : String) : PyStr := s.data

/-- Python `s.upper()` (ASCII, which is all the embedded code relies on). -/
def pyUpper (s : PyStr) : PyStr := s.map Char.toUpper

/-- Python `s.lower()` (ASCII). -/
def pyLower (s : PyStr) : PyStr := s.map Char.toLower

/-- Python whitespace (`str.strip()` default set / regex `\s`, ASCII part). -/
def isPyWs (c : Char) : Bool :=
  c = ' ' || c = '\t' || c = '\n' || c = '\r' || c = '\x0b' || c = '\x0c'

/-- Python `s.lstrip()`. -/
def pyLstrip (s : PyStr) : PyStr := s.dropWhile isPyWs

/-- Python `s.rstrip()`. -/
def pyRstrip (s : PyStr) : PyStr := (s.reverse.dropWhile isPyWs).reverse

/-- Python `s.strip()`. -/
def pyStrip (s : PyStr) : PyStr := pyRstrip (pyLstrip s)

/-- Python `url.rstrip("/")`. -/
def pyRstripSlash (s : PyStr) : PyStr := (s.reverse.dropWhile (· = '/')).reverse

/-- Python `s.split(c)` for a single-character separator (e.g. `"\n"`, `"/"`).
`"".split(c) == [""]`, and separators at the ends yield empty segments. -/
def pySplitOn (c : Char) : PyStr → List PyStr
  | [] => [[]]
  | x :: xs =>
    if x = c then [] :: pySplitOn c xs
    else
      match pySplitOn c xs with
      | [] => [[x]]
      | l :: ls => (x :: l) :: ls

/-- Decimal rendering of a line number, as Python string interpolation does. -/
def natToPyStr (n : Nat) : PyStr := (toString n).data

/-! ## C8 — `_detect_language_from_tree`
(src/backend/src/agentcore/tools/github_analyzer.py, lines 86-114) -/

/-- One entry of the GitHub file tree; the source reads `file.get("type")` and
`file.get("name", "")`. -/
structure TreeEntry where
  type : PyStr
  name : PyStr

/-- The fixed `language_extensions` table, in Python dict insertion order. -/
def language_extensions : List (PyStr × List PyStr) :=
  [ (pstr "python",     [pstr ".py"]),
    (pstr "javascript", [pstr ".js", pstr ".jsx"]),
    (pstr "typescript", [pstr ".ts", pstr ".tsx"]),
    (pstr "go",         [pstr ".go"]),
    (pstr "java",       [pstr ".java"]),
    (pstr "ruby",       [pstr ".rb"]),
    (pstr "php",        [pstr ".php"]) ]

/-- `any(name.endswith(ext) for ext in extensions)`. -/
def matchesExts (exts : List PyStr) (name : PyStr) : Bool :=
  exts.any fun e => decide (e <:+ name)

/-- `extension_counts[lang] = extension_counts.get(lang, 0) + 1` on a Python
dict modelled as an insertion-ordered association list. -/
def bumpCount : List (PyStr × Nat) → PyStr → List (PyStr × Nat)
  | [], l => [(l, 1)]
  | (k, n) :: rest, l =>
    if k = l then (k, n + 1) :: rest else (k, n) :: bumpCount rest l

/-- The body of the `for file in file_tree` loop: entries whose type is not
`"file"` are skipped; every language whose extension list matches the name is
counted (the inner loop over the table has no break). -/
def processEntry (counts : List (PyStr × Nat)) (f : TreeEntry) : List (PyStr × Nat) :=
  if f.type = pstr "file" then
    language_extensions.foldl
      (fun cs le => if matchesExts le.2 f.name then bumpCount cs le.1 else cs) counts
  else counts

/-- The `extension_counts` dict after the whole loop. -/
def extensionCounts (tree : List TreeEntry) : List (PyStr × Nat) :=
  tree.foldl processEntry []

/-- Python `max(d, key=d.get)`: the first key (in insertion order) attaining
the maximal value; `max` keeps the earlier element on ties. -/
def pyMaxKey : List (PyStr × Nat) → Option PyStr
  | [] => none
  | kn :: rest =>
    some ((rest.foldl (fun b kn' => if kn'.2 > b.2 then kn' else b) kn).1)

/-- `_detect_language_from_tree`: `None` when the counts dict is empty,
otherwise the argmax key. -/
def detect_language_from_tree (tree : List TreeEntry) : Option PyStr :=
  let counts := extensionCounts tree
  if counts.isEmpty then none else pyMaxKey counts

/-- Specification-side count: how many `file` entries of the tree match a given
extension list.  (Derived from the loop's semantics, for stating theorems.) -/
def matchCount (exts : List PyStr) (tree : List TreeEntry) : Nat :=
  (tree.filter fun f => decide (f.type = pstr "file") && matchesExts exts f.name).length

/-- Association-list lookup with Python's `dict.get(k, 0)` default. -/
def cntOf (counts : List (PyStr × Nat)) (k : PyStr) : Nat :=
  match counts.find? (fun kn => decide (kn.1 = k)) with
  | some kn => kn.2
  | none => 0

/-- Whether the language keyed `k` in the fixed table matches a file name
(false for keys outside the table); the per-entry contribution of one tree
entry to `k`'s count. -/
def langMatches (k name : PyStr) : Bool :=
  match language_extensions.find? (fun le => decide (le.1 = k)) with
  | some le => matchesExts le.2 name
  | none => false

/-! ## C10 — `parse_github_url`
(src/backend/src/agentcore/tools/github_analyzer.py, lines 343-359) -/

/-- `parse_github_url`.  Python indexes `parts[-2]`, `parts[-1]`, raising when
there are fewer than two segments; that error path is modelled as `none`. -/
def parse_github_url (url : PyStr) : Option (PyStr × PyStr) :=
  let url1 := pyRstripSlash url
  let url2 := if decide (pstr ".git" <:+ url1) then url1.take (url1.length - 4) else url1
  let parts := pySplitOn '/' url2
  match parts.reverse with
  | r :: o :: _ => some (o, r)
  | _ => none

/-! ## C3 — `TerraformValidator.validate`
(src/backend/src/agentcore/validators/terraform_validator.py) -/

/-- Python regex `\w` (the ASCII part, which is all that occurs here). -/
def isWordChar (c : Char) : Bool := c.isAlphanum || c = '_'

/-- Longest prefix of word characters together with the remainder. -/
def takeWord (s : PyStr) : PyStr × PyStr := (s.takeWhile isWordChar, s.dropWhile isWordChar)

/-- One attempted match of the regex `variable\s+"(\w+)"` at the head of the
input: the literal `variable`, at least one whitespace, a quoted word.
Returns the captured group and the remainder after the match. -/
def matchVarDeclAt (s : PyStr) : Option (PyStr × PyStr) :=
  if decide (pstr "variable" <+: s) then
    let t := s.drop 8
    if (t.takeWhile isPyWs).isEmpty then none
    else
      match t.dropWhile isPyWs with
      | '"' :: t3 =>
        let w := t3.takeWhile isWordChar
        if w.isEmpty then none
        else
          match t3.dropWhile isWordChar with
          | '"' :: t5 => some (w, t5)
          | _ => none
      | _ => none
  else none

/-- Left-to-right, non-overlapping `re.findall` scan for a matcher that
returns (captured group, remainder): on a match, skip past the matched text
(the `skip` counter counts the remaining characters to skip); on failure
advance one character. -/
def reFindAllAux (m : PyStr → Option (PyStr × PyStr)) : PyStr → Nat → List PyStr
  | [], _ => []
  | _ :: rest, skip + 1 => reFindAllAux m rest skip
  | c :: rest, 0 =>
    match m (c :: rest) with
    | some (w, t) => w :: reFindAllAux m rest ((c :: rest).length - t.length - 1)
    | none => reFindAllAux m rest 0

def reFindAll (m : PyStr → Option (PyStr × PyStr)) (s : PyStr) : List PyStr :=
  reFindAllAux m s 0

/-- `re.findall(r'variable\s+"(\w+)"', text)`. -/
def findVarDecls (s : PyStr) : List PyStr := reFindAll matchVarDeclAt s

/-- One attempted match of the regex `\$\{var\.(\w+)\}` at the head. -/
def matchVarRefAt (s : PyStr) : Option (PyStr × PyStr) :=
  if decide (pstr "$\x7bvar." <+: s) then
    let t := s.drop 6
    let w := t.takeWhile isWordChar
    if w.isEmpty then none
    else
      match t.dropWhile isWordChar with
      | '\x7d' :: t3 => some (w, t3)
      | _ => none
  else none

/-- `re.findall(r'\$\{var\.(\w+)\}', content)`. -/
def findVarRefs (s : PyStr) : List PyStr := reFindAll matchVarRefAt s

/-- Deterministic stand-in for Python `set(...)`: deduplicate, keeping first
occurrences.  (Only membership and emptiness of these sets matter below.) -/
def dedup (l : List PyStr) : List PyStr :=
  l.foldl (fun acc x => if x ∈ acc then acc else acc ++ [x]) []

/-- `ValidationResult` (validators/validation_result.py). -/
structure ValidationResult where
  valid : Bool
  errors : List PyStr
  warnings : List PyStr

def FORBIDDEN_TERMS : List PyStr :=
  [pstr "PLACEHOLDER", pstr "TODO", pstr "FIXME", pstr "XXX", pstr "CHANGEME", pstr "REPLACE_ME"]

def REQUIRED_FILES : List PyStr :=
  [pstr "main.tf", pstr "variables.tf", pstr "outputs.tf", pstr "iam.tf"]

/-- Python `files[name]` lookup on the dict of generated files. -/
def lookupFile (files : List (PyStr × PyStr)) (name : PyStr) : Option PyStr :=
  (files.find? fun fc => decide (fc.1 = name)).map Prod.snd

/-- The `Missing required files: ...` error (validate, lines 33-36). -/
def missingFilesErrors (files : List (PyStr × PyStr)) : List PyStr :=
  let missing := REQUIRED_FILES.filter fun f => (lookupFile files f).isNone
  if missing.isEmpty then []
  else [pstr "Missing required files: " ++ List.intercalate (pstr ", ") missing]

/-- 1-based index of the first line satisfying `p` (the inner
`for i, line in enumerate(lines, 1)` loop with its `break`). -/
def findLineIdx (p : PyStr → Bool) : List PyStr → Option Nat
  | [] => none
  | l :: ls => if p l then some 1 else (findLineIdx p ls).map (· + 1)

/-- `f"Found forbidden term '{term}' in {filename}:{i}"`. -/
def forbiddenMsg (term fn : PyStr) (i : Nat) : PyStr :=
  pstr "Found forbidden term '" ++ term ++ pstr "' in " ++ fn ++ pstr ":" ++ natToPyStr i

/-- The forbidden-term scan for one file (validate, lines 38-49): for each term
present in the uppercased content, one error naming the first matching line. -/
def forbiddenErrorsFor (fn content : PyStr) : List PyStr :=
  FORBIDDEN_TERMS.filterMap fun term =>
    if decide (term <:+: pyUpper content) then
      (findLineIdx (fun l => decide (term <:+: pyUpper l)) (pySplitOn '\n' content)).map
        (forbiddenMsg term fn)
    else none

def forbiddenErrors (files : List (PyStr × PyStr)) : List PyStr :=
  files.flatMap fun fc => forbiddenErrorsFor fc.1 fc.2

/-- `_check_undefined_variables` (lines 105-128). -/
def check_undefined_variables (files : List (PyStr × PyStr)) : List (PyStr × List PyStr) :=
  let defined :=
    match lookupFile files (pstr "variables.tf") with
    | some c => dedup (findVarDecls c)
    | none => []
  files.filterMap fun fc =>
    if fc.1 = pstr "variables.tf" then none
    else
      let undef := (dedup (findVarRefs fc.2)).filter fun r => decide (r ∉ defined)
      if undef.isEmpty then none else some (fc.1, undef)

/-- The undefined-variable errors (validate, lines 51-58): only checked when a
`variables.tf` is present. -/
def undefinedVarsErrors (files : List (PyStr × PyStr)) : List PyStr :=
  if (lookupFile files (pstr "variables.tf")).isSome then
    (check_undefined_variables files).map fun fu =>
      fu.1 ++ pstr " references undefined variables: " ++ List.intercalate (pstr ", ") fu.2
  else []

/-- The hardcoded-`myapp` warnings (validate, lines 60-66). -/
def myappWarnings (files : List (PyStr × PyStr)) : List PyStr :=
  files.filterMap fun fc =>
    if (decide (pstr "\"myapp\"" <:+: fc.2) || decide (pstr "'myapp'" <:+: fc.2))
        && !decide (pstr "default" <:+: pyLower fc.2) then
      some (fc.1 ++ pstr " contains hardcoded 'myapp' - should use variable")
    else none

/-- `has_resource_or_var` (validate, lines 73-81). -/
def hasResourceOrVar (content : PyStr) : Bool :=
  decide (pstr "resource " <:+: content) || decide (pstr "variable " <:+: content) ||
  decide (pstr "output " <:+: content) || decide (pstr "data " <:+: content) ||
  decide (pstr "provider " <:+: content) || decide (pstr "terraform " <:+: content)

/-- The basic-syntax warnings (validate, lines 68-87). -/
def syntaxWarnings (files : List (PyStr × PyStr)) : List PyStr :=
  files.filterMap fun fc =>
    if !decide (pstr ".tf" <:+ fc.1) then none
    else if !hasResourceOrVar fc.2 && fc.1 ≠ pstr "backend.tf" then
      some (fc.1 ++
        pstr " appears to have invalid Terraform syntax - no resource/variable/output declarations found")
    else none

/-- `TerraformValidator.validate` (lines 20-103): `valid` iff no errors. -/
def validate (files : List (PyStr × PyStr)) : ValidationResult :=
  let errors := missingFilesErrors files ++ forbiddenErrors files ++ undefinedVarsErrors files
  let warnings := myappWarnings files ++ syntaxWarnings files
  { valid := errors.isEmpty, errors := errors, warnings := warnings }

/-! ## C7 — `save_generated_files` / `get_repository_files`
(src/backend/src/services/s3_storage.py) -/

/-- The latest-content view of the versioned generated-files bucket: one
(key, content) pair per key; `put_object` overwrites the latest version. -/
abbrev Bucket := List (PyStr × PyStr)

/-- `put_object`: supersede the existing key or create a new one. -/
def putObject (b : Bucket) (key content : PyStr) : Bucket :=
  if (b.find? fun kc => decide (kc.1 = key)).isSome then
    b.map fun kc => if kc.1 = key then (key, content) else kc
  else b ++ [(key, content)]

/-- The deterministic key layout of `save_generated_files` (lines 94-105):
`repositories/<owner>/<repo>/<filename>`, with `.tf` files under a
`terraform/` subpath. -/
def s3FileKey (owner repo filename : PyStr) : PyStr :=
  let base := pstr "repositories/" ++ owner ++ pstr "/" ++ repo
  if decide (pstr ".tf" <:+ filename) then base ++ pstr "/terraform/" ++ filename
  else base ++ pstr "/" ++ filename

/-- `save_generated_files` (lines 74-127): put every file at its key, collect
the keys in order. -/
def save_generated_files (owner repo : PyStr) (files : List (PyStr × PyStr)) (b : Bucket) :
    Bucket × List PyStr :=
  files.foldl
    (fun acc f =>
      let key := s3FileKey owner repo f.1
      (putObject acc.1 key f.2, acc.2 ++ [key]))
    (b, [])

/-- `key.split("/")[-1]` (line 316). -/
def lastSegment (key : PyStr) : PyStr := ((pySplitOn '/' key).reverse).headI

/-- The listing prefix `f"repositories/{owner}/{repo}/"` (line 305). -/
def repPrefix (owner repo : PyStr) : PyStr :=
  pstr "repositories/" ++ owner ++ pstr "/" ++ repo ++ pstr "/"

/-- `get_repository_files` (lines 290-354): list the objects under the
repository prefix and return (filename, content) pairs.  (The real listing is
key-sorted; only the content set matters to the claims, so bucket order is
kept.) -/
def get_repository_files (owner repo : PyStr) (b : Bucket) : List (PyStr × PyStr) :=
  (b.filter fun kc => decide (repPrefix owner repo <+: kc.1)).map
    fun kc => (lastSegment kc.1, kc.2)

/-! ## C3 (workflow tail) — orchestrator failure semantics and the
change-request guard -/

inductive WfStatus
  | started
  | analyzing
  | generating
  | completed
  | failed
deriving DecidableEq, Repr

structure GenTailOutcome where
  status : WfStatus
  bucket : Bucket
  persistedKeys : List PyStr

/-- The tail of `WorkflowOrchestrator.execute` (orchestrator.py lines 264-338)
from the infra-code stage on: `TerraformGeneratorAgent.invoke` validates the
generated files and raises a `ValueError` when `validate` reports invalid
(terraform_generator.py lines 81-97); the orchestrator's `except` handler then
records status `failed`.  `save_generated_files` (orchestrator.py line 288)
is reached only when `invoke` returns, so nothing is persisted on the failure
path. -/
def runGenerationTail (owner repo : PyStr) (files : List (PyStr × PyStr)) (b : Bucket) :
    GenTailOutcome :=
  if (validate files).valid then
    let r := save_generated_files owner repo files b
    { status := .completed, bucket := r.1, persistedKeys := r.2 }
  else
    { status := .failed, bucket := b, persistedKeys := [] }

/-- The change-request guard (api/pull_requests.py line 81): a PR can be
created only for a generation whose recorded status is `completed`. -/
def canCreatePullRequest (status : WfStatus) : Bool := decide (status = .completed)

/-! ## C4 — `DockerfileGeneratorAgent.invoke` short-circuit
(src/backend/src/agentcore/agents/dockerfile_generator.py) -/

/-- Python `s.replace(a, b)` (all occurrences, left to right). -/
def pyReplace (a b : PyStr) (s : PyStr) : PyStr :=
  match s with
  | [] => []
  | c :: rest =>
    if h : a ≠ [] ∧ a <+: (c :: rest) then
      b ++ pyReplace a b ((c :: rest).drop a.length)
    else c :: pyReplace a b rest
termination_by s.length
decreasing_by
  · have ha : 1 ≤ a.length := by
      rcases h with ⟨hne, -⟩
      rcases a with _ | _
      · simp at hne
      · simp
    simp only [List.length_drop, List.length_cons]
    omega
  · simp

/-- Python `str.find(needle)` (leftmost index, `None` for Python's `-1`). -/
def pyFind (needle : PyStr) : PyStr → Option Nat
  | [] => if needle = [] then some 0 else none
  | c :: rest =>
    if decide (needle <+: (c :: rest)) then some 0
    else (pyFind needle rest).map (· + 1)

/-- Strip the advisory `<thinking>`/`<answer>` envelopes
(`_clean_dockerfile`, lines 311-312). -/
def stripEnvelopes (content : PyStr) : PyStr :=
  pyReplace (pstr "</answer>") []
    (pyReplace (pstr "<answer>") []
      (pyReplace (pstr "</thinking>") []
        (pyReplace (pstr "<thinking>") [] content)))

/-- The fenced-block extraction of `_clean_dockerfile` (lines 314-324). -/
def extractFence (tag : PyStr) (tagLen : Nat) (content : PyStr) : PyStr :=
  match pyFind tag content with
  | some i =>
    let start := i + tagLen
    match (pyFind (pstr "```") (content.drop start)).map (· + start) with
    | some e => if e > start then pyStrip ((content.drop start).take (e - start)) else content
    | none => content
  | none => content

/-- `_clean_dockerfile` (lines 308-340). -/
def clean_dockerfile (content0 : PyStr) : PyStr :=
  let content := stripEnvelopes content0
  let content :=
    if (pyFind (pstr "```dockerfile") content).isSome then
      extractFence (pstr "```dockerfile") 13 content
    else if (pyFind (pstr "```") content).isSome then
      extractFence (pstr "```") 3 content
    else content
  let lines := pySplitOn '\n' content
  let content :=
    match lines.findIdx? (fun l =>
        decide (pstr "FROM" <+: pyStrip l) || decide (pstr "ARG" <+: pyStrip l)) with
    | some i => List.intercalate (pstr "\n") (lines.drop i)
    | none => content
  pyStrip content

/-- The two context fields `DockerfileGeneratorAgent.invoke` reads. -/
structure DockerfileCtx where
  has_existing_dockerfile : Bool
  existing_dockerfile_content : Option PyStr

/-- Python truthiness of the `Optional[str]` content field. -/
def truthyContent : Option PyStr → Bool
  | none => false
  | some s => !s.isEmpty

/-- The `is_complete` test (dockerfile_generator.py lines 51-54): substring
`FROM` present and more than five lines after `strip()`. -/
def dockerfileIsComplete (content : PyStr) : Bool :=
  decide (pstr "FROM" <:+: content) && decide ((pySplitOn '\n' (pyStrip content)).length > 5)

/-- Specification-side count of non-blank lines (lines containing a
non-whitespace character), used to state the pass-through claim. -/
def nonBlankLineCount (content : PyStr) : Nat :=
  ((pySplitOn '\n' content).filter fun l => l.any fun c => !isPyWs c).length

/-- `DockerfileGeneratorAgent.invoke` (lines 27-70), the agent gateway
abstracted as the raw response it would stream back; the boolean records
whether the gateway was called. -/
def dockerfile_invoke (ctx : DockerfileCtx) (agentResponse : PyStr) : PyStr × Bool :=
  match ctx.existing_dockerfile_content with
  | some content =>
    if ctx.has_existing_dockerfile && truthyContent (some content)
        && dockerfileIsComplete content then
      (content, false)
    else (clean_dockerfile agentResponse, true)
  | none => (clean_dockerfile agentResponse, true)

/-! ## C5 — `_extract_json_from_markdown`
(src/backend/src/agentcore/agents/base.py, lines 179-219) -/

/-- Case-insensitive literal prefix match (`re.IGNORECASE`). -/
def ciIsPrefixOf : PyStr → PyStr → Bool
  | [], _ => true
  | _ :: _, [] => false
  | a :: xs, b :: ys => (Char.toLower a = Char.toLower b) && ciIsPrefixOf xs ys

/-- The character class `[\w\+\-\.]` of the `language` pattern. -/
def langCls (c : Char) : Bool := isWordChar c || c = '+' || c = '-' || c = '.'

/-- The character class `[\w\s\-\.]` of the `framework`/`runtime`/
`package_manager` patterns. -/
def fieldCls (c : Char) : Bool := isWordChar c || isPyWs c || c = '-' || c = '.'

/-- Attempted match at the head for a pattern `<key>:?\s*(cls+)` with a greedy
group (the `language` pattern).  Returns the captured group. -/
def matchSimpleKeyAt (key : PyStr) (cls : Char → Bool) (s : PyStr) : Option PyStr :=
  if ciIsPrefixOf key s then
    let t := s.drop key.length
    let t := match t with | ':' :: r => r | _ => t
    let t := t.dropWhile isPyWs
    let w := t.takeWhile cls
    if w.isEmpty then none else some w
  else none

/-- The lazy group `(cls+?)(?:\n|$)`: the shortest non-empty run of class
characters after which the next character is a newline or the end. -/
def lazyUntilEol (cls : Char → Bool) (acc : PyStr) : PyStr → Option PyStr
  | [] => if acc.isEmpty then none else some acc.reverse
  | c :: rest =>
    if acc.isEmpty then
      if cls c then lazyUntilEol cls [c] rest else none
    else if c = '\n' then some acc.reverse
    else if cls c then lazyUntilEol cls (c :: acc) rest
    else none

/-- Attempted match at the head for `<key>:?\s*(cls+?)(?:\n|$)`. -/
def matchLazyKeyAt (key : PyStr) (cls : Char → Bool) (s : PyStr) : Option PyStr :=
  if ciIsPrefixOf key s then
    let t := s.drop key.length
    let t := match t with | ':' :: r => r | _ => t
    lazyUntilEol cls [] (t.dropWhile isPyWs)
  else none

/-- `re.search`: try the positional matcher at every position, first success
wins. -/
def reSearch (m : PyStr → Option PyStr) : PyStr → Option PyStr
  | [] => m []
  | c :: rest =>
    match m (c :: rest) with
    | some w => some w
    | none => reSearch m rest

/-- Earliest case-insensitive occurrence of a literal reachable without
crossing a newline (regex `.` does not match `\n`); returns the remainder
after the literal. -/
def findCIWithin (lit : PyStr) : PyStr → Option PyStr
  | [] => if lit.isEmpty then some [] else none
  | c :: rest =>
    if ciIsPrefixOf lit (c :: rest) then some ((c :: rest).drop lit.length)
    else if c = '\n' then none
    else findCIWithin lit rest

def digitsToNat (ds : PyStr) : Nat :=
  ds.foldl (fun n c => n * 10 + (c.toNat - '0'.toNat)) 0

/-- Attempted match at the head for the port pattern
`\*\*.*?Port.*?\*\*:?\s*(\d+)` (case-insensitive). -/
def matchPortAt (s : PyStr) : Option Nat :=
  if ciIsPrefixOf (pstr "**") s then
    match findCIWithin (pstr "Port") (s.drop 2) with
    | none => none
    | some t =>
      match findCIWithin (pstr "**") t with
      | none => none
      | some t2 =>
        let t2 := match t2 with | ':' :: r => r | _ => t2
        let digits := (t2.dropWhile isPyWs).takeWhile Char.isDigit
        if digits.isEmpty then none else some (digitsToNat digits)
  else none

/-- `re.search(r'\*\*.*?Port.*?\*\*:?\s*(\d+)', text, re.IGNORECASE)`. -/
def reSearchPort : PyStr → Option Nat
  | [] => none
  | c :: rest =>
    match matchPortAt (c :: rest) with
    | some p => some p
    | none => reSearchPort rest

/-- The mapping produced by `_extract_json_from_markdown`: the result dict
with every key it can populate (`setdefault` fills the rest). -/
structure ExtractedContext where
  dependencies : List (PyStr × PyStr)
  language : PyStr
  framework : PyStr
  runtime : PyStr
  package_manager : PyStr
  deployment_target : PyStr
  ports : List Nat
  environment_vars : List PyStr
  health_check_path : PyStr
  start_command : PyStr
  build_command : Option PyStr
deriving DecidableEq, Repr

/-- `_extract_json_from_markdown` (base.py lines 179-219): the four key-value
patterns, the port pattern with default `[3000]`, and the `setdefault`
defaults for every required field (`dependencies` starts as an empty dict). -/
def extract_json_from_markdown (text : PyStr) : ExtractedContext :=
  let language := (reSearch (matchSimpleKeyAt (pstr "**Language**") langCls) text).map pyStrip
  let framework := (reSearch (matchLazyKeyAt (pstr "**Framework**") fieldCls) text).map pyStrip
  let runtime := (reSearch (matchLazyKeyAt (pstr "**Runtime**") fieldCls) text).map pyStrip
  let package_manager :=
    (reSearch (matchLazyKeyAt (pstr "**Package Manager**") fieldCls) text).map pyStrip
  let ports := match reSearchPort text with | some p => [p] | none => [3000]
  { dependencies := []
    language := language.getD (pstr "javascript")
    framework := framework.getD (pstr "unknown")
    runtime := runtime.getD (pstr "node20")
    package_manager := package_manager.getD (pstr "npm")
    deployment_target := pstr "fargate"
    ports := ports
    environment_vars := []
    health_check_path := pstr "/health"
    start_command := pstr "npm start"
    build_command := none }

/-! ## C6 — `AgentCoreMemoryService`
(src/backend/src/services/agentcore_memory.py) -/

inductive MemAction
  | store
  | retrieve
deriving DecidableEq, Repr

/-- One entry appended to `memory_data["agent_sequence"]`. -/
structure MemEvent where
  agent : PyStr
  action : MemAction
  item_id : PyStr
deriving DecidableEq, Repr

/-- One entry of `memory_data["items"]` (`content`, `stored_by`). -/
structure MemoryItem where
  content : PyStr
  stored_by : PyStr
deriving DecidableEq, Repr

/-- `memory_data`: the items dict (insertion-ordered) and the event log. -/
structure MemoryData where
  items : List (PyStr × MemoryItem)
  agent_sequence : List MemEvent
deriving DecidableEq, Repr

/-- `create_session_memory` (lines 28-44): empty items, empty event log. -/
def create_session_memory : MemoryData := { items := [], agent_sequence := [] }

/-- Python dict assignment `memory_data["items"][item_id] = ...`: replaces in
place when the key exists, otherwise appends. -/
def assocSet (items : List (PyStr × MemoryItem)) (key : PyStr) (v : MemoryItem) :
    List (PyStr × MemoryItem) :=
  if (items.find? fun kv => decide (kv.1 = key)).isSome then
    items.map fun kv => if kv.1 = key then (key, v) else kv
  else items ++ [(key, v)]

/-- `store_item` (lines 46-70): assign the item, append one `store` event. -/
def store_item (m : MemoryData) (item_id content agent : PyStr) : MemoryData :=
  { items := assocSet m.items item_id ⟨content, agent⟩
    agent_sequence := m.agent_sequence ++ [⟨agent, .store, item_id⟩] }

/-- `retrieve_item` (lines 72-93): appends a `retrieve` event and returns the
content only when the item exists; otherwise returns `None` untouched. -/
def retrieve_item (m : MemoryData) (item_id agent : PyStr) : MemoryData × Option PyStr :=
  match (m.items.find? fun kv => decide (kv.1 = item_id)).map Prod.snd with
  | some it =>
    ({ m with agent_sequence := m.agent_sequence ++ [⟨agent, .retrieve, item_id⟩] },
      some it.content)
  | none => (m, none)

/-- The operations a session performs against its stage memory. -/
inductive MemOp
  | store (item_id content agent : PyStr)
  | retrieve (item_id agent : PyStr)

def applyMemOp (m : MemoryData) : MemOp → MemoryData
  | .store i c a => store_item m i c a
  | .retrieve i a => (retrieve_item m i a).1

/-- A session's memory after a sequence of operations. -/
def runMemOps (ops : List MemOp) : MemoryData := ops.foldl applyMemOp create_session_memory

/-- The matching predicate of the claim: a `store` event with the item's key
and producer. -/
def matchingStoreEvent (item_id : PyStr) (it : MemoryItem) (e : MemEvent) : Bool :=
  decide (e.action = .store) && decide (e.item_id = item_id) && decide (e.agent = it.stored_by)

/-! ## C9 — `destroy_infrastructure` success path
(src/backend/src/services/deployment.py, lines 835-924, and the operation
status recorded in api/deployments.py line 495) -/

/-- A versioned state bucket: object versions and delete markers, each a
(key, version-id) pair. -/
structure VersionedBucket where
  versions : List (PyStr × Nat)
  deleteMarkers : List (PyStr × Nat)
deriving Repr

/-- `f"states/{project_id}/terraform.tfstate"` (deployment.py line 843). -/
def stateKey (project_id : PyStr) : PyStr :=
  pstr "states/" ++ project_id ++ pstr "/terraform.tfstate"

/-- `delete_object(Key=key, VersionId=v)`: removes exactly that version (or
delete marker). -/
def deleteVersion (b : VersionedBucket) (key : PyStr) (v : Nat) : VersionedBucket :=
  { versions := b.versions.filter fun kv => !(decide (kv.1 = key) && decide (kv.2 = v))
    deleteMarkers := b.deleteMarkers.filter fun kv => !(decide (kv.1 = key) && decide (kv.2 = v)) }

/-- The state-cleanup loop (deployment.py lines 853-876): list versions and
delete markers under the state-key prefix once, then delete each listed
version id at the state key. -/
def deleteStateVersions (b : VersionedBucket) (key : PyStr) : VersionedBucket :=
  let listedV := b.versions.filter fun kv => decide (key <+: kv.1)
  let listedM := b.deleteMarkers.filter fun kv => decide (key <+: kv.1)
  let b1 := listedV.foldl (fun acc kv => deleteVersion acc key kv.2) b
  listedM.foldl (fun acc kv => deleteVersion acc key kv.2) b1

/-- The project-row columns touched by the destroy path. -/
structure ProjectRow where
  deployment_status : PyStr
  application_url : Option PyStr
  terraform_outputs : Option PyStr
  deployment_summary : Option PyStr
deriving Repr

structure DestroyOutcome where
  success : Bool
  operationStatus : PyStr
  bucket : VersionedBucket
  project : ProjectRow

/-- The tail of `destroy_infrastructure` after `terraform destroy` returns
(deployment.py lines 835-924): on exit code 0, delete the state object's
versions (when the connection's account id is known), set the project row to
`destroyed` with `application_url`/`terraform_outputs`/`deployment_summary`
NULL, and report success; the operation session then records status
`completed` iff the result is a success (api/deployments.py line 495). -/
def destroy_tail (exitCode : Nat) (accountId : Option PyStr) (projectId : PyStr)
    (b : VersionedBucket) (p : ProjectRow) : DestroyOutcome :=
  if exitCode = 0 then
    let b' :=
      match accountId with
      | some _ => deleteStateVersions b (stateKey projectId)
      | none => b
    { success := true
      operationStatus := pstr "completed"
      bucket := b'
      project := { deployment_status := pstr "destroyed", application_url := none,
                   terraform_outputs := none, deployment_summary := none } }
  else
    { success := false, operationStatus := pstr "failed", bucket := b, project := p }

/-! ## C2 — `_call_bedrock_agent` retry loop
(src/backend/src/agentcore/agents/base.py, lines 47-134) -/

/-- What one `invoke_agent` attempt does, as seen by the retry loop. -/
inductive AttemptOutcome
  | success (text : PyStr)
  | throttle
  | otherError (msg : PyStr)

/-- `BedrockAgentError`, split by which branch raised it. -/
inductive BedrockFailure
  | rateLimited
  | agentError (msg : PyStr)
deriving DecidableEq, Repr

/-- The `for attempt in range(max_retries)` loop, driven by the number of
attempts remaining (`remaining + attempt = max_retries` throughout): on
success return the stripped text; on a non-throttling error raise
immediately; on throttling, when this was the last attempt
(`attempt == max_retries - 1`, i.e. `remaining = 1`) raise the rate-limited
error with no further sleep, otherwise sleep `2 ** (attempt + 1)` seconds and
retry.  The second component collects the sleeps performed, in order.  (For
`max_retries ≥ 1` the loop always exits inside the body; the zero-remaining
fall-through is never reached.) -/
def callLoop (outcome : Nat → AttemptOutcome) :
    Nat → Nat → List Nat → Except BedrockFailure PyStr × List Nat
  | 0, _, waits => (.error .rateLimited, waits)
  | remaining + 1, attempt, waits =>
    match outcome attempt with
    | .success t => (.ok (pyStrip t), waits)
    | .otherError m => (.error (.agentError m), waits)
    | .throttle =>
      if remaining = 0 then (.error .rateLimited, waits)
      else callLoop outcome remaining (attempt + 1) (waits ++ [2 ^ (attempt + 1)])

/-- `_call_bedrock_agent` with its default `max_retries = 3`. -/
def call_bedrock_agent (outcome : Nat → AttemptOutcome) (max_retries : Nat := 3) :
    Except BedrockFailure PyStr × List Nat :=
  callLoop outcome max_retries 0 []

/-! ## C1 — `stream_workflow_progress`
(src/backend/src/api/workflows.py, lines 89-183) -/

/-- The frames of the SSE protocol, the log payload abstracted. -/
inductive SseFrame (α : Type)
  | status (s : WfStatus)
  | log (entry : α)
  | complete (s : WfStatus)
deriving DecidableEq, Repr

/-- What one consumer observes of the session at one polling iteration. -/
structure SessionSnap (α : Type) where
  logs : List α
  status : WfStatus

/-- One iteration of the `while session_id in active_sessions` loop
(workflows.py lines 139-175): emit `logs[last_log_index:]` when the buffer
grew, advance the index to `len(logs)`, and emit a terminal `complete` frame
when the status is `completed` or `failed`. -/
def pollStep {α : Type} (snap : SessionSnap α) (lastIdx : Nat) :
    List (SseFrame α) × Nat :=
  let emitted :=
    if snap.logs.length > lastIdx then (snap.logs.drop lastIdx).map SseFrame.log else []
  let idx' := if snap.logs.length > lastIdx then snap.logs.length else lastIdx
  let terminal := decide (snap.status = .completed) || decide (snap.status = .failed)
  (emitted ++ (if terminal then [SseFrame.complete snap.status] else []), idx')

/-- Whether the loop breaks after this iteration. -/
def pollTerminal {α : Type} (snap : SessionSnap α) : Bool :=
  decide (snap.status = .completed) || decide (snap.status = .failed)

/-- The polling loop over successive session snapshots, carrying the
consumer's `last_log_index`. -/
def streamLoop {α : Type} : List (SessionSnap α) → Nat → List (SseFrame α)
  | [], _ => []
  | snap :: rest, idx =>
    let r := pollStep snap idx
    if pollTerminal snap then r.1 else r.1 ++ streamLoop rest r.2

/-- `event_generator` (workflows.py lines 122-183) for one (re)connecting
consumer: the first frame reports the current status, then the polling loop
runs; every consumer starts with `last_log_index = 0` (line 138). -/
def event_generator {α : Type} (initialStatus : WfStatus)
    (snaps : List (SessionSnap α)) : List (SseFrame α) :=
  SseFrame.status initialStatus :: streamLoop snaps 0

/-! # Theorems

General lemmas about the Python-string primitives, then one theorem per
claim (with its witness or counterexample). -/

theorem pySplitOn_ne_nil (c : Char) (s : PyStr) : pySplitOn c s ≠ [] := by
  induction s with
  | nil => simp [pySplitOn]
  | cons x xs ih =>
    simp only [pySplitOn]
    by_cases hx : x = c
    · simp [hx]
    · simp only [if_neg hx]
      rcases h : pySplitOn c xs with _ | ⟨l, ls⟩
      · exact absurd h ih
      · simp

theorem pySplitOn_cons_ne (c x : Char) (xs : PyStr) (hx : x ≠ c) :
    pySplitOn c (x :: xs) =
      (x :: (pySplitOn c xs).headI) :: (pySplitOn c xs).tail := by
  simp only [pySplitOn, if_neg hx]
  rcases h : pySplitOn c xs with _ | ⟨l, ls⟩
  · exact absurd h (pySplitOn_ne_nil c xs)
  · simp

theorem pySplitOn_cons_sep (c : Char) (xs : PyStr) :
    pySplitOn c (c :: xs) = [] :: pySplitOn c xs := by
  simp [pySplitOn]

theorem pySplitOn_append_sep (c : Char) (s t : PyStr) :
    pySplitOn c (s ++ c :: t) = pySplitOn c s ++ pySplitOn c t := by
  induction s with
  | nil => simp [pySplitOn]
  | cons x xs ih =>
    by_cases hx : x = c
    · subst hx
      rw [List.cons_append, pySplitOn_cons_sep, pySplitOn_cons_sep, ih, List.cons_append]
    · rw [List.cons_append, pySplitOn_cons_ne c x _ hx, pySplitOn_cons_ne c x xs hx, ih]
      have h1 := pySplitOn_ne_nil c xs
      rcases h : pySplitOn c xs with _ | ⟨l, ls⟩
      · exact absurd h h1
      · simp [h]

theorem pySplitOn_no_sep (c : Char) (s : PyStr) (h : c ∉ s) : pySplitOn c s = [s] := by
  induction s with
  | nil => simp [pySplitOn]
  | cons x xs ih =>
    have hx : x ≠ c := fun he => h (he ▸ List.mem_cons_self x xs)
    have hxs : c ∉ xs := fun hc => h (List.mem_cons_of_mem x hc)
    rw [pySplitOn_cons_ne c x xs hx, ih hxs]
    simp

theorem pySplitOn_headI_pfx (c : Char) (s : PyStr) : (pySplitOn c s).headI <+: s := by
  induction s with
  | nil => simp [pySplitOn]
  | cons x xs ih =>
    by_cases hx : x = c
    · subst hx
      rw [pySplitOn_cons_sep]
      simp
    · rw [pySplitOn_cons_ne c x xs hx]
      simpa using (List.prefix_cons_inj x).mpr ih

theorem pySplitOn_mem_ifx (c : Char) (s l : PyStr) (h : l ∈ pySplitOn c s) :
    l <:+: s := by
  induction s generalizing l with
  | nil =>
    simp [pySplitOn] at h
    simp [h]
  | cons x xs ih =>
    by_cases hx : x = c
    · subst hx
      rw [pySplitOn_cons_sep] at h
      rcases List.mem_cons.mp h with rfl | h
      · exact ⟨[], x :: xs, rfl⟩
      · exact (ih l h).trans ⟨[x], [], by simp⟩
    · rw [pySplitOn_cons_ne c x xs hx] at h
      rcases List.mem_cons.mp h with rfl | h
      · have hp : x :: (pySplitOn c xs).headI <+: x :: xs :=
          (List.prefix_cons_inj x).mpr (pySplitOn_headI_pfx c xs)
        obtain ⟨t, ht⟩ := hp
        exact ⟨[], t, by simpa using ht⟩
      · have hmem : l ∈ pySplitOn c xs := by
          have hne := pySplitOn_ne_nil c xs
          rcases heq : pySplitOn c xs with _ | ⟨l0, ls⟩
          · exact absurd heq hne
          · rw [heq] at h
            exact List.mem_cons_of_mem l0 (by simpa using h)
        exact (ih l hmem).trans ⟨[x], [], by simp⟩

theorem ifx_map (f : Char → Char) {a s : PyStr} (h : a <:+: s) :
    a.map f <:+: s.map f := by
  obtain ⟨u, v, rfl⟩ := h
  exact ⟨u.map f, v.map f, by simp⟩

theorem pySplitOn_headI_append (c : Char) (needle v : PyStr) (hn : c ∉ needle) :
    (pySplitOn c (needle ++ v)).headI = needle ++ (pySplitOn c v).headI := by
  induction needle with
  | nil => simp
  | cons a ns ih =>
    have ha : a ≠ c := fun he => hn (he ▸ List.mem_cons_self a ns)
    have hns : c ∉ ns := fun hm => hn (List.mem_cons_of_mem a hm)
    rw [List.cons_append, pySplitOn_cons_ne c a _ ha, ih hns]
    simp

theorem headI_mem_pySplitOn (c : Char) (s : PyStr) :
    (pySplitOn c s).headI ∈ pySplitOn c s := by
  have hne := pySplitOn_ne_nil c s
  rcases h : pySplitOn c s with _ | ⟨l, ls⟩
  · exact absurd h hne
  · simp

theorem exists_line_of_ifx (c : Char) (needle s : PyStr) (hn : c ∉ needle)
    (h : needle <:+: s) : ∃ l ∈ pySplitOn c s, needle <:+: l := by
  obtain ⟨u, v, rfl⟩ := h
  induction u with
  | nil =>
    refine ⟨(pySplitOn c (needle ++ v)).headI, headI_mem_pySplitOn c _, ?_⟩
    rw [pySplitOn_headI_append c needle v hn]
    exact ⟨[], (pySplitOn c v).headI, by simp⟩
  | cons a u' ih =>
    obtain ⟨l, hl, hifx⟩ := ih
    rw [List.append_assoc] at hl
    simp only [List.cons_append, List.append_assoc]
    by_cases ha : a = c
    · subst ha
      rw [pySplitOn_cons_sep]
      exact ⟨l, List.mem_cons_of_mem [] hl, hifx⟩
    · rw [pySplitOn_cons_ne c a _ ha]
      have hRne := pySplitOn_ne_nil c (u' ++ (needle ++ v))
      rcases hr : pySplitOn c (u' ++ (needle ++ v)) with _ | ⟨l0, ls⟩
      · exact absurd hr hRne
      · rw [hr] at hl
        rcases List.mem_cons.mp hl with rfl | hl
        · refine ⟨a :: l, by simp, ?_⟩
          obtain ⟨u₁, v₁, huv⟩ := hifx
          exact ⟨a :: u₁, v₁, by simp [← huv]⟩
        · refine ⟨l, ?_, hifx⟩
          simp only [List.headI, List.tail]
          exact List.mem_cons_of_mem _ hl

theorem findLineIdx_isSome (p : PyStr → Bool) (lines : List PyStr)
    (h : ∃ l ∈ lines, p l = true) : ∃ i, findLineIdx p lines = some i := by
  induction lines with
  | nil => simp at h
  | cons l ls ih =>
    by_cases hp : p l
    · exact ⟨1, by simp [findLineIdx, hp]⟩
    · obtain ⟨l', hl', hpl'⟩ := h
      rcases List.mem_cons.mp hl' with rfl | hl'
      · exact absurd hpl' (by simp [hp])
      · obtain ⟨i, hi⟩ := ih ⟨l', hl', hpl'⟩
        exact ⟨i + 1, by simp [findLineIdx, hp, hi]⟩

theorem toUpper_TODO : (pstr "TODO").map Char.toUpper = pstr "TODO" := by decide

theorem forbidden_msg_mem (files : List (PyStr × PyStr)) (fn content : PyStr)
    (hmem : (fn, content) ∈ files) (h : pstr "TODO" <:+: content) :
    ∃ i, forbiddenMsg (pstr "TODO") fn i ∈ forbiddenErrors files := by
  have hup : decide (pstr "TODO" <:+: pyUpper content) = true := by
    rw [decide_eq_true_eq]
    have := ifx_map Char.toUpper h
    rwa [toUpper_TODO] at this
  have hline : ∃ l ∈ pySplitOn '\n' content, pstr "TODO" <:+: l :=
    exists_line_of_ifx '\n' (pstr "TODO") content (by decide) h
  have hlineUp : ∃ l ∈ pySplitOn '\n' content,
      (fun l => decide (pstr "TODO" <:+: pyUpper l)) l = true := by
    obtain ⟨l, hl, hifx⟩ := hline
    refine ⟨l, hl, ?_⟩
    simp only [decide_eq_true_eq]
    have := ifx_map Char.toUpper hifx
    rwa [toUpper_TODO] at this
  obtain ⟨i, hi⟩ := findLineIdx_isSome _ _ hlineUp
  refine ⟨i, ?_⟩
  have hfor : forbiddenMsg (pstr "TODO") fn i ∈ forbiddenErrorsFor fn content := by
    apply List.mem_filterMap.mpr
    refine ⟨pstr "TODO", by decide, ?_⟩
    rw [if_pos hup, hi]
    rfl
  exact List.mem_flatMap.mpr ⟨(fn, content), hmem, hfor⟩

/-- Claim C3 (amended): if any generated infra-code file contains the
placeholder substring `TODO`, the validator reports `valid = false` with an
error `Found forbidden term 'TODO' in <file>:<line>`, the workflow ends in
state `failed`, nothing is persisted to the artifact store (the persist step
is only reached after a non-raising validation), and no change-request can be
raised for the session. -/
theorem C3_forbidden_term_fails_workflow_nothing_persisted
    (files : List (PyStr × PyStr)) (fn content owner repo : PyStr) (b : Bucket)
    (hmem : (fn, content) ∈ files) (h : pstr "TODO" <:+: content) :
    (validate files).valid = false
    ∧ (∃ i, forbiddenMsg (pstr "TODO") fn i ∈ (validate files).errors)
    ∧ (runGenerationTail owner repo files b).status = WfStatus.failed
    ∧ (runGenerationTail owner repo files b).bucket = b
    ∧ (runGenerationTail owner repo files b).persistedKeys = []
    ∧ canCreatePullRequest (runGenerationTail owner repo files b).status = false := by
  obtain ⟨i, hi⟩ := forbidden_msg_mem files fn content hmem h
  have herr : forbiddenMsg (pstr "TODO") fn i ∈ (validate files).errors := by
    simp only [validate]
    exact List.mem_append.mpr (Or.inl (List.mem_append.mpr (Or.inr hi)))
  have hvalid : (validate files).valid = false := by
    simp only [validate]
    exact List.isEmpty_eq_false.mpr (List.ne_nil_of_mem
      (List.mem_append.mpr (Or.inl (List.mem_append.mpr (Or.inr hi)))))
  refine ⟨hvalid, ⟨i, herr⟩, ?_, ?_, ?_, ?_⟩ <;>
    simp [runGenerationTail, hvalid, canCreatePullRequest]

theorem C3_forbidden_witness :
    ((pstr "main.tf", pstr "TODO") ∈ [(pstr "main.tf", pstr "TODO")]
      ∧ pstr "TODO" <:+: pstr "TODO")
    ∧ ((validate [(pstr "main.tf", pstr "TODO")]).valid = false
      ∧ (∃ i, forbiddenMsg (pstr "TODO") (pstr "main.tf") i
          ∈ (validate [(pstr "main.tf", pstr "TODO")]).errors)
      ∧ (runGenerationTail (pstr "o") (pstr "r") [(pstr "main.tf", pstr "TODO")] []).status
          = WfStatus.failed
      ∧ (runGenerationTail (pstr "o") (pstr "r") [(pstr "main.tf", pstr "TODO")] []).bucket = []
      ∧ (runGenerationTail (pstr "o") (pstr "r")
          [(pstr "main.tf", pstr "TODO")] []).persistedKeys = []
      ∧ canCreatePullRequest (runGenerationTail (pstr "o") (pstr "r")
          [(pstr "main.tf", pstr "TODO")] []).status = false) :=
  ⟨⟨by decide, by decide⟩,
    C3_forbidden_term_fails_workflow_nothing_persisted
      [(pstr "main.tf", pstr "TODO")] (pstr "main.tf") (pstr "TODO")
      (pstr "o") (pstr "r") [] (by decide) (by decide)⟩

/-- Claim C3, counterexample to the claim as stated: with `main.tf`
containing `TODO`, the workflow fails but the artifact bundle is NOT
persisted — the bucket is untouched, no keys are recorded, and a latest-read
of the repository returns nothing (the claim asserts the bundle is still
persisted). -/
theorem C3_counterexample_nothing_persisted :
    (validate [(pstr "main.tf", pstr "TODO")]).valid = false
    ∧ (runGenerationTail (pstr "o") (pstr "r") [(pstr "main.tf", pstr "TODO")] []).status
        = WfStatus.failed
    ∧ (runGenerationTail (pstr "o") (pstr "r") [(pstr "main.tf", pstr "TODO")] []).bucket = []
    ∧ (runGenerationTail (pstr "o") (pstr "r")
        [(pstr "main.tf", pstr "TODO")] []).persistedKeys = []
    ∧ get_repository_files (pstr "o") (pstr "r")
        (runGenerationTail (pstr "o") (pstr "r") [(pstr "main.tf", pstr "TODO")] []).bucket
        = [] := by
  refine ⟨by decide, by decide, by decide, by decide, by decide⟩

/-- Claim C5 (confirmed): on the response consisting only of
`**Language**: python` and `**Port**: 5000`, the markdown fallback extractor
returns `language = "python"`, `ports = [5000]`, and the conservative
defaults for every absent required field. -/
theorem C5_markdown_fallback_extraction :
    extract_json_from_markdown (pstr "**Language**: python\n**Port**: 5000") =
      { dependencies := []
        language := pstr "python"
        framework := pstr "unknown"
        runtime := pstr "node20"
        package_manager := pstr "npm"
        deployment_target := pstr "fargate"
        ports := [5000]
        environment_vars := []
        health_check_path := pstr "/health"
        start_command := pstr "npm start"
        build_command := none } := by decide

/-- Claim C2 (amended): when every attempt is throttled the gateway sleeps 2
then 4 seconds between the three attempts (6 seconds in total, not 2+4+8) and
raises the rate-limited error immediately after the third throttle; a
non-throttling failure at attempt `k` (after `k` throttled attempts) is
raised immediately, with only the sleeps already performed. -/
theorem C2_throttle_retry_behaviour :
    (∀ outcome : Nat → AttemptOutcome, (∀ j < 3, outcome j = AttemptOutcome.throttle) →
        call_bedrock_agent outcome = (.error .rateLimited, [2, 4]) ∧ ([2, 4].sum = 6))
    ∧ (∀ (outcome : Nat → AttemptOutcome) (m : PyStr) (k : Nat), k < 3 →
        (∀ j < k, outcome j = AttemptOutcome.throttle) →
        outcome k = AttemptOutcome.otherError m →
        call_bedrock_agent outcome =
          (.error (.agentError m), (List.range k).map fun j => 2 ^ (j + 1))) := by
  constructor
  · intro outcome h
    have h0 := h 0 (by omega)
    have h1 := h 1 (by omega)
    have h2 := h 2 (by omega)
    refine ⟨?_, by decide⟩
    simp [call_bedrock_agent, callLoop, h0, h1, h2]
  · intro outcome m k hk hthr herr
    interval_cases k
    · simp [call_bedrock_agent, callLoop, herr]
    · have h0 := hthr 0 (by omega)
      simp [call_bedrock_agent, callLoop, h0, herr, List.range_succ]
    · have h0 := hthr 0 (by omega)
      have h1 := hthr 1 (by omega)
      simp [call_bedrock_agent, callLoop, h0, h1, herr, List.range_succ]

theorem C2_throttle_witness :
    ((∀ j < 3, (fun _ => AttemptOutcome.throttle) j = AttemptOutcome.throttle)
      ∧ call_bedrock_agent (fun _ => AttemptOutcome.throttle) = (.error .rateLimited, [2, 4]))
    ∧ ((fun n => if n = 0 then AttemptOutcome.otherError (pstr "boom")
          else AttemptOutcome.throttle) 0 = AttemptOutcome.otherError (pstr "boom")
      ∧ call_bedrock_agent (fun n => if n = 0 then AttemptOutcome.otherError (pstr "boom")
          else AttemptOutcome.throttle) = (.error (.agentError (pstr "boom")), [])) :=
  ⟨⟨fun _ _ => rfl,
      (C2_throttle_retry_behaviour.1 (fun _ => AttemptOutcome.throttle) (fun _ _ => rfl)).1⟩,
    ⟨rfl, by
      have := C2_throttle_retry_behaviour.2
        (fun n => if n = 0 then AttemptOutcome.otherError (pstr "boom")
          else AttemptOutcome.throttle) (pstr "boom") 0 (by omega) (by omega) rfl
      simpa using this⟩⟩

/-- Claim C2, counterexample to the claim as stated: three consecutive
throttles produce sleeps `[2, 4]` — a total wait of 6 seconds, not the
claimed 2+4+8 = 14 — because no sleep happens after the final attempt. -/
theorem C2_counterexample_total_wait :
    (call_bedrock_agent (fun _ => AttemptOutcome.throttle)).2.sum = 6 ∧ (6 : Nat) ≠ 2 + 4 + 8 := by
  constructor
  · rfl
  · decide

/-- Claim C1 (amended): within a single streaming connection the consumer's
log index never decreases, and its first frame reports the current status;
but a (re)connecting consumer does not resume from its previous index — it
always starts at index 0 and is replayed the entire log buffer. -/
theorem C1_stream_index_monotone_but_reconnect_replays :
    (∀ (α : Type) (snap : SessionSnap α) (idx : Nat), idx ≤ (pollStep snap idx).2)
    ∧ (∀ (α : Type) (st : WfStatus) (logs : List α),
        event_generator st [⟨logs, WfStatus.generating⟩]
          = SseFrame.status st :: logs.map SseFrame.log) := by
  constructor
  · intro α snap idx
    simp only [pollStep]
    split
    · omega
    · omega
  · intro α st logs
    rcases logs with _ | ⟨x, xs⟩
    · simp [event_generator, streamLoop, pollStep, pollTerminal]
    · simp [event_generator, streamLoop, pollStep, pollTerminal]

/-- Claim C1, counterexample to the claim as stated: the session's log holds
entries 1..12 and a fresh consumer connects (as consumer B would after A read
through index 10).  B's first frame is the status frame, but B then receives
the log from entry 1 — it does see entries earlier than 11, because every
consumer starts with `last_log_index = 0`. -/
theorem C1_counterexample_reconnect_sees_old_entries :
    (event_generator WfStatus.generating
        [⟨[1, 2, 3, 4, 5, 6, 7, 8, 9, 10, 11, 12], WfStatus.generating⟩]).head?
      = some (SseFrame.status WfStatus.generating)
    ∧ SseFrame.log 1 ∈ event_generator WfStatus.generating
        [⟨[1, 2, 3, 4, 5, 6, 7, 8, 9, 10, 11, 12], WfStatus.generating⟩] := by
  constructor
  · rfl
  · decide

theorem assocSet_mem (items : List (PyStr × MemoryItem)) (key : PyStr) (v : MemoryItem)
    (p : PyStr × MemoryItem) (hp : p ∈ assocSet items key v) :
    p ∈ items ∨ p = (key, v) := by
  unfold assocSet at hp
  split at hp
  · obtain ⟨kv, hkv, heq⟩ := List.mem_map.mp hp
    by_cases hk : kv.1 = key
    · right
      rw [if_pos hk] at heq
      exact heq.symm
    · left
      rw [if_neg hk] at heq
      exact heq ▸ hkv
  · rcases List.mem_append.mp hp with h | h
    · exact Or.inl h
    · exact Or.inr (List.mem_singleton.mp h)

theorem memAttributionStep (m : MemoryData)
    (hm : ∀ p ∈ m.items, ∃ e ∈ m.agent_sequence, matchingStoreEvent p.1 p.2 e = true)
    (op : MemOp) :
    ∀ p ∈ (applyMemOp m op).items,
      ∃ e ∈ (applyMemOp m op).agent_sequence, matchingStoreEvent p.1 p.2 e = true := by
  cases op with
  | store i c a =>
    intro p hp
    rcases assocSet_mem m.items i ⟨c, a⟩ p hp with h | h
    · obtain ⟨e, he, hmatch⟩ := hm p h
      exact ⟨e, List.mem_append.mpr (Or.inl he), hmatch⟩
    · refine ⟨⟨a, .store, i⟩, List.mem_append.mpr (Or.inr (List.mem_singleton.mpr rfl)), ?_⟩
      subst h
      simp [matchingStoreEvent]
  | retrieve i a =>
    intro p hp
    simp only [applyMemOp, retrieve_item] at hp ⊢
    rcases hfind : (m.items.find? fun kv => decide (kv.1 = i)).map Prod.snd with _ | it
    · rw [hfind] at hp ⊢
      exact hm p hp
    · rw [hfind] at hp ⊢
      obtain ⟨e, he, hmatch⟩ := hm p hp
      exact ⟨e, List.mem_append.mpr (Or.inl he), hmatch⟩

theorem memAttributionFold (ops : List MemOp) (m : MemoryData)
    (hm : ∀ p ∈ m.items, ∃ e ∈ m.agent_sequence, matchingStoreEvent p.1 p.2 e = true) :
    ∀ p ∈ (ops.foldl applyMemOp m).items,
      ∃ e ∈ (ops.foldl applyMemOp m).agent_sequence, matchingStoreEvent p.1 p.2 e = true := by
  induction ops generalizing m with
  | nil => exact hm
  | cons op ops ih => exact ih (applyMemOp m op) (memAttributionStep m hm op)

/-- Claim C6 (amended): every store appends exactly one `store` event and
every successful retrieve appends exactly one `retrieve` event to the
session's event log; the log only ever grows; and every item in stage memory
has AT LEAST one matching `store` event (key and producer) in the log.
"Exactly one" fails because re-storing a key overwrites the item while adding
a second matching event. -/
theorem C6_memory_events_append_only_attribution :
    (∀ (m : MemoryData) (i c a : PyStr),
        (store_item m i c a).agent_sequence = m.agent_sequence ++ [⟨a, .store, i⟩])
    ∧ (∀ (m : MemoryData) (i a : PyStr), (retrieve_item m i a).2.isSome = true →
        (retrieve_item m i a).1.agent_sequence = m.agent_sequence ++ [⟨a, .retrieve, i⟩])
    ∧ (∀ (m : MemoryData) (op : MemOp),
        m.agent_sequence <+: (applyMemOp m op).agent_sequence)
    ∧ (∀ (ops : List MemOp), ∀ p ∈ (runMemOps ops).items,
        ∃ e ∈ (runMemOps ops).agent_sequence, matchingStoreEvent p.1 p.2 e = true) := by
  refine ⟨fun m i c a => rfl, ?_, ?_, ?_⟩
  · intro m i a h
    simp only [retrieve_item] at h ⊢
    rcases hfind : (m.items.find? fun kv => decide (kv.1 = i)).map Prod.snd with _ | it
    · rw [hfind] at h
      simp at h
    · rw [hfind]
  · intro m op
    cases op with
    | store i c a => exact ⟨[⟨a, .store, i⟩], rfl⟩
    | retrieve i a =>
      simp only [applyMemOp, retrieve_item]
      rcases hfind : (m.items.find? fun kv => decide (kv.1 = i)).map Prod.snd with _ | it
      · rw [hfind]
      · rw [hfind]
        exact ⟨[⟨a, .retrieve, i⟩], rfl⟩
  · intro ops
    exact memAttributionFold ops create_session_memory (by simp [create_session_memory])

theorem C6_memory_witness :
    ((store_item create_session_memory (pstr "k") (pstr "c") (pstr "a")).agent_sequence
      = [] ++ [⟨pstr "a", MemAction.store, pstr "k"⟩])
    ∧ ((pstr "k", MemoryItem.mk (pstr "c") (pstr "a"))
        ∈ (runMemOps [MemOp.store (pstr "k") (pstr "c") (pstr "a")]).items)
    ∧ (∃ e ∈ (runMemOps [MemOp.store (pstr "k") (pstr "c") (pstr "a")]).agent_sequence,
        matchingStoreEvent (pstr "k") (MemoryItem.mk (pstr "c") (pstr "a")) e = true) :=
  ⟨C6_memory_events_append_only_attribution.1 create_session_memory
      (pstr "k") (pstr "c") (pstr "a"),
    by decide,
    C6_memory_events_append_only_attribution.2.2.2
      [MemOp.store (pstr "k") (pstr "c") (pstr "a")]
      (pstr "k", MemoryItem.mk (pstr "c") (pstr "a")) (by decide)⟩

/-- Claim C6, counterexample to the claim as stated: storing the same key
twice by the same producer leaves one item in stage memory but TWO matching
`store` events in the event log — not exactly one. -/
theorem C6_counterexample_double_store :
    ((runMemOps [MemOp.store (pstr "k") (pstr "c1") (pstr "a"),
        MemOp.store (pstr "k") (pstr "c2") (pstr "a")]).items
      = [(pstr "k", MemoryItem.mk (pstr "c2") (pstr "a"))])
    ∧ ((runMemOps [MemOp.store (pstr "k") (pstr "c1") (pstr "a"),
          MemOp.store (pstr "k") (pstr "c2") (pstr "a")]).agent_sequence.filter
        (fun e => matchingStoreEvent (pstr "k") (MemoryItem.mk (pstr "c2") (pstr "a")) e)).length
      = 2 := by
  constructor
  · decide
  · decide

theorem memFoldDeleteVersions (key : PyStr) (L : List (PyStr × Nat)) (b : VersionedBucket)
    (kv : PyStr × Nat)
    (h : kv ∈ (L.foldl (fun acc x => deleteVersion acc key x.2) b).versions) :
    kv ∈ b.versions ∧ ∀ x ∈ L, ¬(kv.1 = key ∧ kv.2 = x.2) := by
  induction L generalizing b with
  | nil => simpa using h
  | cons x L ih =>
    rw [List.foldl_cons] at h
    obtain ⟨hmem, hrest⟩ := ih (deleteVersion b key x.2) h
    simp only [deleteVersion, List.mem_filter] at hmem
    obtain ⟨hb, hpred⟩ := hmem
    refine ⟨hb, ?_⟩
    intro y hy
    rcases List.mem_cons.mp hy with rfl | hy
    · intro ⟨h1, h2⟩
      simp [h1, h2] at hpred
    · exact hrest y hy

theorem memFoldDeleteMarkers (key : PyStr) (L : List (PyStr × Nat)) (b : VersionedBucket)
    (kv : PyStr × Nat)
    (h : kv ∈ (L.foldl (fun acc x => deleteVersion acc key x.2) b).deleteMarkers) :
    kv ∈ b.deleteMarkers ∧ ∀ x ∈ L, ¬(kv.1 = key ∧ kv.2 = x.2) := by
  induction L generalizing b with
  | nil => simpa using h
  | cons x L ih =>
    rw [List.foldl_cons] at h
    obtain ⟨hmem, hrest⟩ := ih (deleteVersion b key x.2) h
    simp only [deleteVersion, List.mem_filter] at hmem
    obtain ⟨hb, hpred⟩ := hmem
    refine ⟨hb, ?_⟩
    intro y hy
    rcases List.mem_cons.mp hy with rfl | hy
    · intro ⟨h1, h2⟩
      simp [h1, h2] at hpred
    · exact hrest y hy

theorem deleteStateVersions_clears_versions (b : VersionedBucket) (key : PyStr) :
    (deleteStateVersions b key).versions.filter (fun kv => decide (kv.1 = key)) = [] := by
  rw [List.filter_eq_nil_iff]
  intro kv hkv
  simp only [decide_eq_true_eq]
  intro hkey
  simp only [deleteStateVersions] at hkv
  obtain ⟨h1, -⟩ := memFoldDeleteVersions key _ _ kv hkv
  obtain ⟨hb, hall⟩ := memFoldDeleteVersions key _ _ kv h1
  have hlisted : kv ∈ b.versions.filter (fun x => decide (key <+: x.1)) := by
    rw [List.mem_filter]
    exact ⟨hb, by simp [hkey]⟩
  exact hall kv hlisted ⟨hkey, rfl⟩

theorem deleteStateVersions_clears_markers (b : VersionedBucket) (key : PyStr) :
    (deleteStateVersions b key).deleteMarkers.filter (fun kv => decide (kv.1 = key)) = [] := by
  rw [List.filter_eq_nil_iff]
  intro kv hkv
  simp only [decide_eq_true_eq]
  intro hkey
  simp only [deleteStateVersions] at hkv
  obtain ⟨h1, hallM⟩ := memFoldDeleteMarkers key _ _ kv hkv
  obtain ⟨hb, -⟩ := memFoldDeleteMarkers key _ _ kv h1
  have hlisted : kv ∈ b.deleteMarkers.filter (fun x => decide (key <+: x.1)) := by
    rw [List.mem_filter]
    exact ⟨hb, by simp [hkey]⟩
  exact hallM kv hlisted ⟨hkey, rfl⟩

/-- Claim C9 (confirmed): when `terraform destroy` exits 0 for a project whose
cloud connection's account id is known, the destroy operation reports
success, the operation session records status `completed`, every version and
delete marker of `states/<project-id>/terraform.tfstate` is deleted from the
per-caller bucket, and the project row's `application_url`,
`terraform_outputs` and `deployment_summary` are set to NULL (status
`destroyed`). -/
theorem C9_destroy_success_clears_state_and_outputs
    (a projectId : PyStr) (b : VersionedBucket) (p : ProjectRow) :
    (destroy_tail 0 (some a) projectId b p).success = true
    ∧ (destroy_tail 0 (some a) projectId b p).operationStatus = pstr "completed"
    ∧ (destroy_tail 0 (some a) projectId b p).bucket.versions.filter
        (fun kv => decide (kv.1 = stateKey projectId)) = []
    ∧ (destroy_tail 0 (some a) projectId b p).bucket.deleteMarkers.filter
        (fun kv => decide (kv.1 = stateKey projectId)) = []
    ∧ (destroy_tail 0 (some a) projectId b p).project.application_url = none
    ∧ (destroy_tail 0 (some a) projectId b p).project.terraform_outputs = none
    ∧ (destroy_tail 0 (some a) projectId b p).project.deployment_summary = none
    ∧ (destroy_tail 0 (some a) projectId b p).project.deployment_status = pstr "destroyed" := by
  refine ⟨rfl, rfl, ?_, ?_, rfl, rfl, rfl, rfl⟩
  · exact deleteStateVersions_clears_versions b (stateKey projectId)
  · exact deleteStateVersions_clears_markers b (stateKey projectId)

theorem pyRstripSlash_concat_ne (s : PyStr) (c : Char) (hc : c ≠ '/') :
    pyRstripSlash (s ++ [c]) = s ++ [c] := by
  simp [pyRstripSlash, List.dropWhile_cons, hc]

theorem dropWhile_replicate_append (p : Char → Bool) (c : Char) (hp : p c = true)
    (k : Nat) (t : PyStr) : (List.replicate k c ++ t).dropWhile p = t.dropWhile p := by
  induction k with
  | zero => simp
  | succ k ih => simpa [List.replicate_succ, List.dropWhile_cons, hp] using ih

theorem pyRstripSlash_append_replicate (s : PyStr) (k : Nat) :
    pyRstripSlash (s ++ List.replicate k '/') = pyRstripSlash s := by
  simp only [pyRstripSlash, List.reverse_append, List.reverse_replicate]
  rw [dropWhile_replicate_append _ '/' (by simp) k s.reverse]

theorem not_git_sfx (host owner repo : PyStr) (hr : repo ≠ []) (hrs : '/' ∉ repo)
    (hg : ¬ pstr ".git" <:+ repo) :
    ¬ pstr ".git" <:+ (host ++ pstr "/" ++ owner ++ pstr "/" ++ repo) := by
  intro hgit
  set u := host ++ pstr "/" ++ owner ++ pstr "/" ++ repo with hu
  by_cases h4 : 4 ≤ repo.length
  · have hrsuf : repo <:+ u := ⟨host ++ pstr "/" ++ owner ++ pstr "/", by simp [hu]⟩
    exact hg (List.suffix_of_suffix_length_le hgit hrsuf (by simpa using h4))
  · have hcr : ('/' :: repo) <:+ u := by
      refine ⟨host ++ pstr "/" ++ owner, ?_⟩
      simp [hu, pstr]
    have hlen : ('/' :: repo).length ≤ (pstr ".git").length := by
      simp only [List.length_cons]
      have : (pstr ".git").length = 4 := by decide
      omega
    have hsub : ('/' :: repo) <:+ pstr ".git" :=
      List.suffix_of_suffix_length_le hcr hgit hlen
    obtain ⟨t, ht⟩ := hsub
    have : '/' ∈ pstr ".git" := by
      rw [← ht]
      exact List.mem_append_right t (List.mem_cons_self '/' repo)
    revert this
    decide

theorem pyRstripSlash_of_last_ne (s : PyStr) (hr : s ≠ []) (hrs : '/' ∉ s) (t : PyStr) :
    pyRstripSlash (t ++ s) = t ++ s := by
  rcases List.eq_nil_or_concat s with rfl | ⟨q, c, rfl⟩
  · exact absurd rfl hr
  · rw [List.concat_eq_append] at hrs ⊢
    have hc : c ≠ '/' := by
      intro h
      exact hrs (h ▸ List.mem_append_right q (List.mem_singleton.mpr rfl))
    rw [← List.append_assoc]
    exact pyRstripSlash_concat_ne (t ++ q) c hc

theorem pySplitOn_url (host owner repo : PyStr) (hos : '/' ∉ owner) (hrs : '/' ∉ repo) :
    pySplitOn '/' (host ++ pstr "/" ++ owner ++ pstr "/" ++ repo)
      = pySplitOn '/' host ++ ([owner] ++ [repo]) := by
  have hshape : host ++ pstr "/" ++ owner ++ pstr "/" ++ repo
      = host ++ '/' :: (owner ++ '/' :: repo) := by
    simp [pstr]
  rw [hshape, pySplitOn_append_sep '/' host (owner ++ '/' :: repo),
    pySplitOn_append_sep '/' owner repo, pySplitOn_no_sep '/' owner hos,
    pySplitOn_no_sep '/' repo hrs]

/-- Claim C10 (amended): for a URL `<host>/<owner>/<repo>` whose owner and
repo segments contain no `/`, whose repo is non-empty and does not itself end
in `.git`, the parser returns (owner, repo) and the result is invariant under
appending `.git` or any number of trailing `/` characters.  (Without the
`.git` proviso the claim fails, see the counterexample.) -/
theorem C10_parse_url_last_two_segments (host owner repo : PyStr)
    (hos : '/' ∉ owner) (hr : repo ≠ []) (hrs : '/' ∉ repo)
    (hg : ¬ pstr ".git" <:+ repo) :
    parse_github_url (host ++ pstr "/" ++ owner ++ pstr "/" ++ repo) = some (owner, repo)
    ∧ parse_github_url ((host ++ pstr "/" ++ owner ++ pstr "/" ++ repo) ++ pstr ".git")
        = some (owner, repo)
    ∧ ∀ k, parse_github_url ((host ++ pstr "/" ++ owner ++ pstr "/" ++ repo)
        ++ List.replicate k '/') = some (owner, repo) := by
  set u := host ++ pstr "/" ++ owner ++ pstr "/" ++ repo with hu
  have hustrip : pyRstripSlash u = u := by
    rw [hu]
    exact pyRstripSlash_of_last_ne repo hr hrs (host ++ pstr "/" ++ owner ++ pstr "/")
  have hgitu : decide (pstr ".git" <:+ u) = false := by
    rw [hu]
    exact decide_eq_false (not_git_sfx host owner repo hr hrs hg)
  have hsplit := pySplitOn_url host owner repo hos hrs
  have hparse : parse_github_url u = some (owner, repo) := by
    simp only [parse_github_url, hustrip, hgitu, Bool.false_eq_true, if_false]
    rw [hu, hsplit]
    simp
  refine ⟨hparse, ?_, ?_⟩
  · have h1 : pyRstripSlash (u ++ pstr ".git") = u ++ pstr ".git" := by
      have hsh : u ++ pstr ".git" = (u ++ pstr ".gi") ++ ['t'] := by simp [pstr]
      rw [hsh]
      exact pyRstripSlash_concat_ne _ 't' (by decide)
    have h2 : decide (pstr ".git" <:+ u ++ pstr ".git") = true := by
      rw [decide_eq_true_eq]
      exact ⟨u, rfl⟩
    have h3 : (u ++ pstr ".git").take ((u ++ pstr ".git").length - 4) = u := by
      have hl : (u ++ pstr ".git").length - 4 = u.length := by
        simp [pstr]
      rw [hl]
      exact List.take_left u (pstr ".git")
    simp only [parse_github_url, h1, h2, if_true]
    rw [h3, hu, hsplit]
    simp
  · intro k
    have h1 : pyRstripSlash (u ++ List.replicate k '/') = u := by
      rw [pyRstripSlash_append_replicate, hustrip]
    simp only [parse_github_url, h1, hgitu, Bool.false_eq_true, if_false]
    rw [hu, hsplit]
    simp

/-- Claim C10, counterexample to the claim as stated: for the repo segment
`x.git` (URL `h/o/x.git`) the parser strips the `.git` and returns
`(o, x)` — not the last two path segments — and appending `.git` changes the
result. -/
theorem C10_counterexample_git_repo_name :
    parse_github_url (pstr "h/o/x.git") = some (pstr "o", pstr "x")
    ∧ parse_github_url (pstr "h/o/x.git" ++ pstr ".git") = some (pstr "o", pstr "x.git")
    ∧ parse_github_url (pstr "h/o/x.git")
        ≠ parse_github_url (pstr "h/o/x.git" ++ pstr ".git") := by
  refine ⟨by decide, by decide, by decide⟩

theorem C10_parse_url_witness :
    ('/' ∉ pstr "own" ∧ pstr "rep" ≠ [] ∧ '/' ∉ pstr "rep"
      ∧ ¬ pstr ".git" <:+ pstr "rep")
    ∧ (parse_github_url (pstr "github.com" ++ pstr "/" ++ pstr "own" ++ pstr "/" ++ pstr "rep")
        = some (pstr "own", pstr "rep")
      ∧ parse_github_url ((pstr "github.com" ++ pstr "/" ++ pstr "own" ++ pstr "/"
          ++ pstr "rep") ++ pstr ".git") = some (pstr "own", pstr "rep")) :=
  ⟨⟨by decide, by decide, by decide, by decide⟩,
    ⟨(C10_parse_url_last_two_segments (pstr "github.com") (pstr "own") (pstr "rep")
        (by decide) (by decide) (by decide) (by decide)).1,
      (C10_parse_url_last_two_segments (pstr "github.com") (pstr "own") (pstr "rep")
        (by decide) (by decide) (by decide) (by decide)).2.1⟩⟩

theorem nbc_cons_sep (s : PyStr) : nonBlankLineCount ('\n' :: s) = nonBlankLineCount s := by
  simp [nonBlankLineCount, pySplitOn_cons_sep]

theorem headI_split_cons_ne (a : Char) (s : PyStr) (ha : a ≠ '\n') :
    (pySplitOn '\n' (a :: s)).headI = a :: (pySplitOn '\n' s).headI := by
  rw [pySplitOn_cons_ne '\n' a s ha]
  rfl

theorem nbc_cons_ne (a : Char) (s : PyStr) (ha : a ≠ '\n') :
    nonBlankLineCount (a :: s)
      + (if (pySplitOn '\n' s).headI.any (fun c => !isPyWs c) then 1 else 0)
    = nonBlankLineCount s
      + (if (a :: (pySplitOn '\n' s).headI).any (fun c => !isPyWs c) then 1 else 0) := by
  have hne := pySplitOn_ne_nil '\n' s
  rcases heq : pySplitOn '\n' s with _ | ⟨l, ls⟩
  · exact absurd heq hne
  · rw [nonBlankLineCount, pySplitOn_cons_ne '\n' a s ha, heq]
    rw [nonBlankLineCount, heq]
    simp only [List.headI, List.tail, List.filter_cons]
    by_cases h1 : (a :: l).any fun c => !isPyWs c
    · by_cases h2 : l.any fun c => !isPyWs c
      · simp [h1, h2]
      · simp [h1, h2]
    · by_cases h2 : l.any fun c => !isPyWs c
      · have : (a :: l).any (fun c => !isPyWs c) = true := by
          simp only [List.any_cons, Bool.or_eq_true]
          exact Or.inr h2
        simp [h1] at this
      · simp [h1, h2]

theorem nbc_cons_ws (a : Char) (s : PyStr) (ha : isPyWs a = true) :
    nonBlankLineCount (a :: s) = nonBlankLineCount s := by
  by_cases hn : a = '\n'
  · subst hn
    exact nbc_cons_sep s
  · have h := nbc_cons_ne a s hn
    have hany : (a :: (pySplitOn '\n' s).headI).any (fun c => !isPyWs c)
        = (pySplitOn '\n' s).headI.any (fun c => !isPyWs c) := by
      simp [List.any_cons, ha]
    rw [hany] at h
    omega

theorem nbc_prepend_ws (w : PyStr) (hw : ∀ c ∈ w, isPyWs c = true) (v : PyStr) :
    nonBlankLineCount (w ++ v) = nonBlankLineCount v := by
  induction w with
  | nil => simp
  | cons a w' ih =>
    have ha := hw a (List.mem_cons_self a w')
    have hw' : ∀ c ∈ w', isPyWs c = true := fun c hc => hw c (List.mem_cons_of_mem a hc)
    rw [List.cons_append, nbc_cons_ws a _ ha, ih hw']

theorem nbc_allws (w : PyStr) (hw : ∀ c ∈ w, isPyWs c = true) :
    nonBlankLineCount w = 0
    ∧ (pySplitOn '\n' w).headI.any (fun c => !isPyWs c) = false := by
  induction w with
  | nil => constructor <;> simp [nonBlankLineCount, pySplitOn]
  | cons a w' ih =>
    have ha := hw a (List.mem_cons_self a w')
    have hw' : ∀ c ∈ w', isPyWs c = true := fun c hc => hw c (List.mem_cons_of_mem a hc)
    obtain ⟨ih1, ih2⟩ := ih hw'
    by_cases hn : a = '\n'
    · subst hn
      refine ⟨by rw [nbc_cons_sep]; exact ih1, ?_⟩
      rw [pySplitOn_cons_sep]
      simp
    · refine ⟨by rw [nbc_cons_ws a w' ha]; exact ih1, ?_⟩
      rw [headI_split_cons_ne a w' hn]
      simp [List.any_cons, ha, ih2]

theorem nbc_append_ws (w : PyStr) (hw : ∀ c ∈ w, isPyWs c = true) (v : PyStr) :
    nonBlankLineCount (v ++ w) = nonBlankLineCount v
    ∧ (pySplitOn '\n' (v ++ w)).headI.any (fun c => !isPyWs c)
      = (pySplitOn '\n' v).headI.any (fun c => !isPyWs c) := by
  induction v with
  | nil =>
    obtain ⟨h1, h2⟩ := nbc_allws w hw
    constructor
    · simpa [nonBlankLineCount, pySplitOn] using h1
    · simpa [pySplitOn] using h2
  | cons a v' ih =>
    obtain ⟨ih1, ih2⟩ := ih
    by_cases hn : a = '\n'
    · subst hn
      constructor
      · rw [List.cons_append, nbc_cons_sep, nbc_cons_sep, ih1]
      · rw [List.cons_append, pySplitOn_cons_sep, pySplitOn_cons_sep]
        simp
    · constructor
      · have h1 := nbc_cons_ne a (v' ++ w) hn
        have h2 := nbc_cons_ne a v' hn
        simp only [List.any_cons] at h1 h2
        simp only [ih2] at h1
        rw [List.cons_append]
        omega
      · rw [List.cons_append, headI_split_cons_ne a _ hn, headI_split_cons_ne a v' hn]
        simp [List.any_cons, ih2]

theorem pyRstrip_decomp (v : PyStr) :
    pyRstrip v ++ (v.reverse.takeWhile isPyWs).reverse = v := by
  rw [pyRstrip, ← List.reverse_append, List.takeWhile_append_dropWhile, List.reverse_reverse]

theorem nbc_le_strip_lines (content : PyStr) :
    nonBlankLineCount content ≤ (pySplitOn '\n' (pyStrip content)).length := by
  have h1 : nonBlankLineCount content = nonBlankLineCount (pyLstrip content) := by
    conv_lhs => rw [← List.takeWhile_append_dropWhile (p := isPyWs) (l := content)]
    exact nbc_prepend_ws _ (fun c hc => List.mem_takeWhile_imp hc) _
  have h2 : nonBlankLineCount (pyLstrip content) = nonBlankLineCount (pyStrip content) := by
    conv_lhs => rw [← pyRstrip_decomp (pyLstrip content)]
    exact (nbc_append_ws _ (fun c hc =>
      List.mem_takeWhile_imp (List.mem_reverse.mp hc)) _).1
  rw [h1, h2, nonBlankLineCount]
  exact List.length_filter_le _ _

theorem pyStrip_ifx (l : PyStr) : pyStrip l <:+: l := by
  have h1 : pyLstrip l <:+ l := List.dropWhile_suffix isPyWs
  have h2 : pyStrip l <+: pyLstrip l := by
    rw [pyStrip, pyRstrip]
    have h3 : (pyLstrip l).reverse.dropWhile isPyWs <:+ (pyLstrip l).reverse :=
      List.dropWhile_suffix isPyWs
    have h4 := List.reverse_prefix.mpr h3
    rwa [List.reverse_reverse] at h4
  obtain ⟨tp, htp⟩ := h2
  obtain ⟨tsuf, htsuf⟩ := h1
  refine ⟨tsuf, tp, ?_⟩
  conv_rhs => rw [← htsuf, ← htp]
  rw [List.append_assoc]

/-- Claim C4 (confirmed): when the repository context has an existing
container recipe whose content contains a `FROM` directive (a line whose
stripped form starts with `FROM`) and more than five non-blank lines, the
recipe stage returns that content byte-for-byte unchanged and does not call
the agent gateway. -/
theorem C4_existing_dockerfile_pass_through (ctx : DockerfileCtx) (content resp : PyStr)
    (hd : ctx.has_existing_dockerfile = true)
    (hc : ctx.existing_dockerfile_content = some content)
    (hfrom : ∃ l ∈ pySplitOn '\n' content, pstr "FROM" <+: pyStrip l)
    (hlines : 5 < nonBlankLineCount content) :
    dockerfile_invoke ctx resp = (content, false) := by
  have hifx : pstr "FROM" <:+: content := by
    obtain ⟨l, hl, hpre⟩ := hfrom
    have h1 : pstr "FROM" <:+: pyStrip l := by
      obtain ⟨t, ht⟩ := hpre
      exact ⟨[], t, by simpa using ht⟩
    exact (h1.trans (pyStrip_ifx l)).trans (pySplitOn_mem_ifx '\n' content l hl)
  have hcount : 5 < (pySplitOn '\n' (pyStrip content)).length :=
    lt_of_lt_of_le hlines (nbc_le_strip_lines content)
  have hnonempty : content.isEmpty = false := by
    rcases content with _ | _
    · simp [nonBlankLineCount, pySplitOn] at hlines
    · simp
  have hcomplete : dockerfileIsComplete content = true := by
    simp only [dockerfileIsComplete, Bool.and_eq_true, decide_eq_true_eq]
    exact ⟨hifx, hcount⟩
  simp only [dockerfile_invoke, hc, hd, truthyContent, hnonempty, hcomplete]
  simp

theorem C4_pass_through_witness :
    ((⟨true, some (pstr "FROM python:3.12-slim\nRUN a\nRUN b\nRUN c\nRUN d\nCMD x")⟩
        : DockerfileCtx).has_existing_dockerfile = true
      ∧ (⟨true, some (pstr "FROM python:3.12-slim\nRUN a\nRUN b\nRUN c\nRUN d\nCMD x")⟩
        : DockerfileCtx).existing_dockerfile_content
          = some (pstr "FROM python:3.12-slim\nRUN a\nRUN b\nRUN c\nRUN d\nCMD x")
      ∧ (∃ l ∈ pySplitOn '\n' (pstr "FROM python:3.12-slim\nRUN a\nRUN b\nRUN c\nRUN d\nCMD x"),
          pstr "FROM" <+: pyStrip l)
      ∧ 5 < nonBlankLineCount (pstr "FROM python:3.12-slim\nRUN a\nRUN b\nRUN c\nRUN d\nCMD x"))
    ∧ dockerfile_invoke
        ⟨true, some (pstr "FROM python:3.12-slim\nRUN a\nRUN b\nRUN c\nRUN d\nCMD x")⟩
        (pstr "ignored")
      = (pstr "FROM python:3.12-slim\nRUN a\nRUN b\nRUN c\nRUN d\nCMD x", false) :=
  ⟨⟨rfl, rfl, by decide, by decide⟩,
    C4_existing_dockerfile_pass_through
      ⟨true, some (pstr "FROM python:3.12-slim\nRUN a\nRUN b\nRUN c\nRUN d\nCMD x")⟩
      (pstr "FROM python:3.12-slim\nRUN a\nRUN b\nRUN c\nRUN d\nCMD x") (pstr "ignored")
      rfl rfl (by decide) (by decide)⟩

theorem repPrefix_pfx_key (owner repo fn : PyStr) :
    repPrefix owner repo <+: s3FileKey owner repo fn := by
  have hT : pstr "/terraform/" = pstr "/" ++ pstr "terraform/" := by decide
  simp only [s3FileKey, repPrefix]
  split
  · refine ⟨pstr "terraform/" ++ fn, ?_⟩
    rw [hT]
    simp [List.append_assoc]
  · exact ⟨fn, by simp [List.append_assoc]⟩

theorem lastSegment_sep_append (w fn : PyStr) (hfn : '/' ∉ fn) :
    lastSegment (w ++ '/' :: fn) = fn := by
  rw [lastSegment, pySplitOn_append_sep '/' w fn, pySplitOn_no_sep '/' fn hfn]
  rw [List.reverse_append]
  rfl

theorem lastSegment_key (owner repo fn : PyStr) (hfn : '/' ∉ fn) :
    lastSegment (s3FileKey owner repo fn) = fn := by
  have hT : pstr "/terraform/"
      = pstr "/terraform" ++ '/' :: ([] : PyStr) := by decide
  have hS : pstr "/" = '/' :: ([] : PyStr) := by decide
  simp only [s3FileKey]
  split
  · have hshape : pstr "repositories/" ++ owner ++ pstr "/" ++ repo ++ pstr "/terraform/" ++ fn
        = (pstr "repositories/" ++ owner ++ pstr "/" ++ repo ++ pstr "/terraform") ++ '/' :: fn := by
      rw [hT]
      simp [List.append_assoc]
    rw [hshape]
    exact lastSegment_sep_append _ fn hfn
  · have hshape : pstr "repositories/" ++ owner ++ pstr "/" ++ repo ++ pstr "/" ++ fn
        = (pstr "repositories/" ++ owner ++ pstr "/" ++ repo) ++ '/' :: fn := by
      rw [hS]
      simp [List.append_assoc]
    rw [hshape]
    exact lastSegment_sep_append _ fn hfn

theorem putObject_fresh (b : Bucket) (key content : PyStr)
    (hkey : key ∉ b.map Prod.fst) : putObject b key content = b ++ [(key, content)] := by
  have hfind : b.find? (fun kc => decide (kc.1 = key)) = none := by
    rw [List.find?_eq_none]
    intro x hx
    simp only [decide_eq_true_eq]
    intro he
    exact hkey (he ▸ List.mem_map_of_mem Prod.fst hx)
  rw [putObject, hfind]
  simp

theorem save_foldl_fresh (owner repo : PyStr) (files : List (PyStr × PyStr))
    (b : Bucket) (ks : List PyStr)
    (hfresh : ∀ fc ∈ files, s3FileKey owner repo fc.1 ∉ b.map Prod.fst)
    (hnd : (files.map fun fc => s3FileKey owner repo fc.1).Nodup) :
    files.foldl
      (fun acc f =>
        let key := s3FileKey owner repo f.1
        (putObject acc.1 key f.2, acc.2 ++ [key])) (b, ks)
    = (b ++ files.map (fun fc => (s3FileKey owner repo fc.1, fc.2)),
       ks ++ files.map fun fc => s3FileKey owner repo fc.1) := by
  induction files generalizing b ks with
  | nil => simp
  | cons f fs ih =>
    rw [List.foldl_cons]
    simp only
    rw [putObject_fresh b _ f.2 (hfresh f (List.mem_cons_self f fs))]
    simp only [List.map_cons, List.nodup_cons] at hnd
    have hfresh' : ∀ fc ∈ fs,
        s3FileKey owner repo fc.1 ∉ (b ++ [(s3FileKey owner repo f.1, f.2)]).map Prod.fst := by
      intro fc hfc
      rw [List.map_append, List.mem_append]
      rintro (h | h)
      · exact hfresh fc (List.mem_cons_of_mem f hfc) h
      · simp only [List.map_cons, List.map_nil, List.mem_singleton] at h
        exact hnd.1 (h ▸ List.mem_map_of_mem (fun fc => s3FileKey owner repo fc.1) hfc)
    rw [ih (b ++ [(s3FileKey owner repo f.1, f.2)]) (ks ++ [s3FileKey owner repo f.1])
      hfresh' hnd.2]
    simp

theorem map_keys_nodup (owner repo : PyStr) (files : List (PyStr × PyStr))
    (hslash : ∀ fc ∈ files, '/' ∉ fc.1) (hnd : (files.map Prod.fst).Nodup) :
    (files.map fun fc => s3FileKey owner repo fc.1).Nodup := by
  have hinj : ∀ x ∈ files.map Prod.fst, ∀ y ∈ files.map Prod.fst,
      s3FileKey owner repo x = s3FileKey owner repo y → x = y := by
    intro x hx y hy heq
    obtain ⟨fcx, hfcx, rfl⟩ := List.mem_map.mp hx
    obtain ⟨fcy, hfcy, rfl⟩ := List.mem_map.mp hy
    have hsx := hslash fcx hfcx
    have hsy := hslash fcy hfcy
    have hT : pstr "/terraform/" = pstr "/" ++ pstr "terraform/" := by decide
    simp only [s3FileKey] at heq
    split at heq <;> split at heq
    · simp only [List.append_assoc] at heq
      exact List.append_cancel_left (List.append_cancel_left (List.append_cancel_left
        (List.append_cancel_left (List.append_cancel_left heq))))
    · rw [hT] at heq
      simp only [List.append_assoc] at heq
      have h1 := List.append_cancel_left (List.append_cancel_left (List.append_cancel_left
        (List.append_cancel_left (List.append_cancel_left heq))))
      have hm : '/' ∈ pstr "terraform/" ++ fcx.1 :=
        List.mem_append_left _ (by decide)
      rw [h1] at hm
      exact absurd hm hsy
    · rw [hT] at heq
      simp only [List.append_assoc] at heq
      have h1 := List.append_cancel_left (List.append_cancel_left (List.append_cancel_left
        (List.append_cancel_left (List.append_cancel_left heq))))
      have hm : '/' ∈ pstr "terraform/" ++ fcy.1 :=
        List.mem_append_left _ (by decide)
      rw [← h1] at hm
      exact absurd hm hsx
    · simp only [List.append_assoc] at heq
      exact List.append_cancel_left (List.append_cancel_left (List.append_cancel_left
        (List.append_cancel_left (List.append_cancel_left heq))))
  have := List.Nodup.map_on hinj hnd
  rwa [List.map_map] at this

/-- Claim C7 (confirmed): writing an artifact bundle (distinct, slash-free
filenames) stores each file at the deterministic key
`repositories/<owner>/<repo>/<filename>` — `.tf` files under the
`…/terraform/` subpath — and, when no object already sits under the
repository's prefix, a subsequent latest-read returns exactly the same
(filename, content) set. -/
theorem C7_save_then_read_round_trip (owner repo : PyStr)
    (files : List (PyStr × PyStr)) (b : Bucket)
    (hslash : ∀ fc ∈ files, '/' ∉ fc.1)
    (hnd : (files.map Prod.fst).Nodup)
    (hempty : ∀ kc ∈ b, ¬ repPrefix owner repo <+: kc.1) :
    (save_generated_files owner repo files b).2
        = files.map (fun fc => s3FileKey owner repo fc.1)
    ∧ get_repository_files owner repo (save_generated_files owner repo files b).1 = files := by
  have hfresh : ∀ fc ∈ files, s3FileKey owner repo fc.1 ∉ b.map Prod.fst := by
    intro fc hfc hk
    obtain ⟨kc, hkc, hkeq⟩ := List.mem_map.mp hk
    exact hempty kc hkc (hkeq ▸ repPrefix_pfx_key owner repo fc.1)
  have hknd := map_keys_nodup owner repo files hslash hnd
  have hsave := save_foldl_fresh owner repo files b [] hfresh hknd
  have hsave' : save_generated_files owner repo files b
      = (b ++ files.map (fun fc => (s3FileKey owner repo fc.1, fc.2)),
         files.map fun fc => s3FileKey owner repo fc.1) := by
    rw [save_generated_files, hsave]
    simp
  refine ⟨by rw [hsave'], ?_⟩
  rw [hsave']
  simp only [get_repository_files, List.filter_append]
  have hfb : b.filter (fun kc => decide (repPrefix owner repo <+: kc.1)) = [] := by
    rw [List.filter_eq_nil_iff]
    intro kc hkc
    simpa using hempty kc hkc
  have hfn : (files.map fun fc => (s3FileKey owner repo fc.1, fc.2)).filter
      (fun kc => decide (repPrefix owner repo <+: kc.1))
      = files.map fun fc => (s3FileKey owner repo fc.1, fc.2) := by
    rw [List.filter_eq_self]
    intro kc hkc
    obtain ⟨fc, hfc, rfl⟩ := List.mem_map.mp hkc
    simpa using repPrefix_pfx_key owner repo fc.1
  rw [hfb, hfn, List.nil_append, List.map_map]
  have : ∀ fc ∈ files,
      ((fun kc => (lastSegment kc.1, kc.2)) ∘ fun fc => (s3FileKey owner repo fc.1, fc.2)) fc
        = fc := by
    intro fc hfc
    simp [lastSegment_key owner repo fc.1 (hslash fc hfc)]
  rw [List.map_congr_left this]
  simp

theorem C7_round_trip_witness :
    ((∀ fc ∈ [(pstr "Dockerfile", pstr "FROM x"), (pstr "main.tf", pstr "m")], '/' ∉ fc.1)
      ∧ ([(pstr "Dockerfile", pstr "FROM x"), (pstr "main.tf", pstr "m")].map Prod.fst).Nodup
      ∧ (∀ kc ∈ ([] : Bucket), ¬ repPrefix (pstr "o") (pstr "r") <+: kc.1))
    ∧ ((save_generated_files (pstr "o") (pstr "r")
          [(pstr "Dockerfile", pstr "FROM x"), (pstr "main.tf", pstr "m")] []).2
        = [(pstr "Dockerfile", pstr "FROM x"), (pstr "main.tf", pstr "m")].map
            (fun fc => s3FileKey (pstr "o") (pstr "r") fc.1)
      ∧ get_repository_files (pstr "o") (pstr "r")
          (save_generated_files (pstr "o") (pstr "r")
            [(pstr "Dockerfile", pstr "FROM x"), (pstr "main.tf", pstr "m")] []).1
        = [(pstr "Dockerfile", pstr "FROM x"), (pstr "main.tf", pstr "m")]) :=
  ⟨⟨by decide, by decide, by decide⟩,
    C7_save_then_read_round_trip (pstr "o") (pstr "r")
      [(pstr "Dockerfile", pstr "FROM x"), (pstr "main.tf", pstr "m")] []
      (by decide) (by decide) (by decide)⟩

theorem cntOf_nil (l : PyStr) : cntOf [] l = 0 := rfl

theorem cntOf_cons_self (l : PyStr) (n : Nat) (cs : List (PyStr × Nat)) :
    cntOf ((l, n) :: cs) l = n := by
  simp [cntOf, List.find?_cons]

theorem cntOf_cons_ne (k : PyStr) (n : Nat) (cs : List (PyStr × Nat)) (l : PyStr)
    (h : k ≠ l) : cntOf ((k, n) :: cs) l = cntOf cs l := by
  simp [cntOf, List.find?_cons, h]

theorem bump_cnt_self (cs : List (PyStr × Nat)) (l : PyStr) :
    cntOf (bumpCount cs l) l = cntOf cs l + 1 := by
  induction cs with
  | nil => simp [bumpCount, cntOf_cons_self, cntOf_nil]
  | cons kn rest ih =>
    obtain ⟨k, n⟩ := kn
    by_cases hk : k = l
    · subst hk
      rw [bumpCount, if_pos rfl, cntOf_cons_self, cntOf_cons_self]
    · rw [bumpCount, if_neg hk, cntOf_cons_ne k n _ l hk, cntOf_cons_ne k n rest l hk]
      exact ih

theorem bump_cnt_other (cs : List (PyStr × Nat)) (l k' : PyStr) (hk : k' ≠ l) :
    cntOf (bumpCount cs l) k' = cntOf cs k' := by
  induction cs with
  | nil => simp [bumpCount, cntOf_nil, cntOf_cons_ne l 1 [] k' (Ne.symm hk)]
  | cons kn rest ih =>
    obtain ⟨k, n⟩ := kn
    by_cases hkl : k = l
    · subst hkl
      rw [bumpCount, if_pos rfl, cntOf_cons_ne k (n + 1) rest k' (Ne.symm hk),
        cntOf_cons_ne k n rest k' (Ne.symm hk)]
    · by_cases hkk : k = k'
      · subst hkk
        rw [bumpCount, if_neg hkl, cntOf_cons_self, cntOf_cons_self]
      · rw [bumpCount, if_neg hkl, cntOf_cons_ne k n _ k' hkk, cntOf_cons_ne k n rest k' hkk]
        exact ih

theorem bump_mem (cs : List (PyStr × Nat)) (l : PyStr) (p : PyStr × Nat)
    (hp : p ∈ bumpCount cs l) : (p.1 = l ∧ 0 < p.2) ∨ p ∈ cs := by
  induction cs with
  | nil =>
    rw [bumpCount] at hp
    rcases List.mem_singleton.mp hp with rfl
    exact Or.inl ⟨rfl, by omega⟩
  | cons kn rest ih =>
    obtain ⟨k, n⟩ := kn
    by_cases hk : k = l
    · subst hk
      rw [bumpCount, if_pos rfl] at hp
      rcases List.mem_cons.mp hp with rfl | hp
      · exact Or.inl ⟨rfl, by omega⟩
      · exact Or.inr (List.mem_cons_of_mem _ hp)
    · rw [bumpCount, if_neg hk] at hp
      rcases List.mem_cons.mp hp with rfl | hp
      · exact Or.inr (List.mem_cons_self _ _)
      · rcases ih hp with h | h
        · exact Or.inl h
        · exact Or.inr (List.mem_cons_of_mem _ h)

theorem bump_keys (cs : List (PyStr × Nat)) (l : PyStr) :
    (bumpCount cs l).map Prod.fst =
      if l ∈ cs.map Prod.fst then cs.map Prod.fst else cs.map Prod.fst ++ [l] := by
  induction cs with
  | nil => simp [bumpCount]
  | cons kn rest ih =>
    obtain ⟨k, n⟩ := kn
    by_cases hk : k = l
    · subst hk
      rw [bumpCount, if_pos rfl]
      simp
    · rw [bumpCount, if_neg hk]
      simp only [List.map_cons, ih, List.mem_cons]
      by_cases hmem : l ∈ rest.map Prod.fst
      · rw [if_pos hmem, if_pos (Or.inr hmem)]
      · rw [if_neg hmem, if_neg (by rintro (h | h); exact hk h.symm; exact hmem h)]
        simp

theorem bump_nodup (cs : List (PyStr × Nat)) (l : PyStr)
    (hnd : (cs.map Prod.fst).Nodup) : ((bumpCount cs l).map Prod.fst).Nodup := by
  rw [bump_keys]
  by_cases hmem : l ∈ cs.map Prod.fst
  · rwa [if_pos hmem]
  · rw [if_neg hmem]
    simp [List.nodup_append, hnd, hmem]

theorem cnt_of_mem_nodup (cs : List (PyStr × Nat)) (hnd : (cs.map Prod.fst).Nodup)
    (p : PyStr × Nat) (hp : p ∈ cs) : cntOf cs p.1 = p.2 := by
  induction cs with
  | nil => simp at hp
  | cons kn rest ih =>
    obtain ⟨k, n⟩ := kn
    simp only [List.map_cons, List.nodup_cons] at hnd
    rcases List.mem_cons.mp hp with rfl | hp
    · exact cntOf_cons_self k n rest
    · have hk : k ≠ p.1 := by
        intro he
        exact hnd.1 (he ▸ List.mem_map_of_mem Prod.fst hp)
      rw [cntOf_cons_ne k n rest p.1 hk]
      exact ih hnd.2 hp

theorem innerFold_cnt (name : PyStr) (tbl : List (PyStr × List PyStr))
    (cs : List (PyStr × Nat)) (k : PyStr) (hnd : (tbl.map Prod.fst).Nodup) :
    cntOf (tbl.foldl
        (fun cs le => if matchesExts le.2 name then bumpCount cs le.1 else cs) cs) k
      = cntOf cs k
        + (match tbl.find? (fun le => decide (le.1 = k)) with
           | some le => if matchesExts le.2 name then 1 else 0
           | none => 0) := by
  induction tbl generalizing cs with
  | nil => simp
  | cons le tbl' ih =>
    rw [List.foldl_cons]
    simp only [List.map_cons, List.nodup_cons] at hnd
    by_cases hk : le.1 = k
    · have hnone : tbl'.find? (fun le => decide (le.1 = k)) = none := by
        rw [List.find?_eq_none]
        intro x hx
        simp only [decide_eq_true_eq]
        intro he
        exact hnd.1 (hk ▸ he ▸ List.mem_map_of_mem Prod.fst hx)
      have hfind : List.find? (fun le => decide (le.1 = k)) (le :: tbl') = some le :=
        List.find?_cons_of_pos _ (by simpa using hk)
      rw [hfind]
      cases hmb : matchesExts le.2 name with
      | true =>
        simp only [hmb, if_true]
        rw [ih _ hnd.2, hnone, ← hk, bump_cnt_self]
        simp
      | false =>
        simp only [hmb, Bool.false_eq_true, if_false]
        rw [ih _ hnd.2, hnone]
    · have hfind : List.find? (fun le => decide (le.1 = k)) (le :: tbl')
          = tbl'.find? (fun le => decide (le.1 = k)) :=
        List.find?_cons_of_neg _ (by simpa using hk)
      rw [hfind]
      cases hmb : matchesExts le.2 name with
      | true =>
        simp only [hmb, if_true]
        rw [ih _ hnd.2, bump_cnt_other cs le.1 k (fun he => hk he.symm)]
      | false =>
        simp only [hmb, Bool.false_eq_true, if_false]
        rw [ih _ hnd.2]

theorem table_keys_nodup : (language_extensions.map Prod.fst).Nodup := by decide

theorem contribution_eq_langMatches (k name : PyStr) :
    (match language_extensions.find? (fun le => decide (le.1 = k)) with
     | some le => if matchesExts le.2 name then 1 else 0
     | none => 0)
    = if langMatches k name then 1 else 0 := by
  rw [langMatches]
  rcases hf : language_extensions.find? (fun le => decide (le.1 = k)) with _ | le
  · rw [hf]
    simp
  · rw [hf]

theorem foldTree_cnt (tree : List TreeEntry) (cs : List (PyStr × Nat)) (k : PyStr) :
    cntOf (tree.foldl processEntry cs) k
      = cntOf cs k
        + (tree.filter fun f => decide (f.type = pstr "file") && langMatches k f.name).length := by
  induction tree generalizing cs with
  | nil => simp
  | cons f t ih =>
    rw [List.foldl_cons, ih, List.filter_cons]
    by_cases hf : f.type = pstr "file"
    · have hpe : processEntry cs f = language_extensions.foldl
          (fun cs le => if matchesExts le.2 f.name then bumpCount cs le.1 else cs) cs := by
        rw [processEntry, if_pos hf]
      rw [hpe, innerFold_cnt f.name language_extensions cs k table_keys_nodup,
        contribution_eq_langMatches k f.name]
      cases hlm : langMatches k f.name with
      | true =>
        simp [hf, hlm]
        omega
      | false => simp [hf, hlm]
    · have hpe : processEntry cs f = cs := by
        rw [processEntry, if_neg hf]
      rw [hpe]
      simp [hf]

theorem extCounts_cnt (tree : List TreeEntry) (k : PyStr) :
    cntOf (extensionCounts tree) k
      = (tree.filter fun f => decide (f.type = pstr "file") && langMatches k f.name).length := by
  rw [extensionCounts, foldTree_cnt tree [] k, cntOf_nil]
  omega

theorem innerFold_inv (name : PyStr) (tbl : List (PyStr × List PyStr))
    (hsub : ∀ le ∈ tbl, le ∈ language_extensions) (cs : List (PyStr × Nat))
    (hnd : (cs.map Prod.fst).Nodup)
    (hmem : ∀ p ∈ cs, (∃ exts, (p.1, exts) ∈ language_extensions) ∧ 0 < p.2) :
    ((tbl.foldl (fun cs le => if matchesExts le.2 name then bumpCount cs le.1 else cs)
        cs).map Prod.fst).Nodup
    ∧ ∀ p ∈ tbl.foldl (fun cs le => if matchesExts le.2 name then bumpCount cs le.1 else cs) cs,
        (∃ exts, (p.1, exts) ∈ language_extensions) ∧ 0 < p.2 := by
  induction tbl generalizing cs with
  | nil => exact ⟨hnd, hmem⟩
  | cons le tbl' ih =>
    rw [List.foldl_cons]
    have hsub' : ∀ x ∈ tbl', x ∈ language_extensions :=
      fun x hx => hsub x (List.mem_cons_of_mem le hx)
    cases hmb : matchesExts le.2 name with
    | false =>
      simp only [hmb, Bool.false_eq_true, if_false]
      exact ih hsub' cs hnd hmem
    | true =>
      simp only [hmb, if_true]
      refine ih hsub' (bumpCount cs le.1) (bump_nodup cs le.1 hnd) ?_
      intro p hp
      rcases bump_mem cs le.1 p hp with ⟨hkey, hpos⟩ | hmem'
      · refine ⟨⟨le.2, ?_⟩, hpos⟩
        rw [hkey]
        simpa using hsub le (List.mem_cons_self le tbl')
      · exact hmem p hmem'

theorem extCounts_inv (tree : List TreeEntry) :
    ((extensionCounts tree).map Prod.fst).Nodup
    ∧ ∀ p ∈ extensionCounts tree,
        (∃ exts, (p.1, exts) ∈ language_extensions) ∧ 0 < p.2 := by
  rw [extensionCounts]
  suffices h : ∀ cs : List (PyStr × Nat), (cs.map Prod.fst).Nodup →
      (∀ p ∈ cs, (∃ exts, (p.1, exts) ∈ language_extensions) ∧ 0 < p.2) →
      ((tree.foldl processEntry cs).map Prod.fst).Nodup
      ∧ ∀ p ∈ tree.foldl processEntry cs,
          (∃ exts, (p.1, exts) ∈ language_extensions) ∧ 0 < p.2 by
    exact h [] (by simp) (by simp)
  induction tree with
  | nil => exact fun cs hnd hmem => ⟨hnd, hmem⟩
  | cons f t ih =>
    intro cs hnd hmem
    rw [List.foldl_cons]
    by_cases hf : f.type = pstr "file"
    · have hpe : processEntry cs f = language_extensions.foldl
          (fun cs le => if matchesExts le.2 f.name then bumpCount cs le.1 else cs) cs := by
        rw [processEntry, if_pos hf]
      rw [hpe]
      obtain ⟨h1, h2⟩ := innerFold_inv f.name language_extensions (fun le h => h) cs hnd hmem
      exact ih _ h1 h2
    · have hpe : processEntry cs f = cs := by
        rw [processEntry, if_neg hf]
      rw [hpe]
      exact ih cs hnd hmem

theorem foldMax_spec (rest : List (PyStr × Nat)) (b : PyStr × Nat) :
    (rest.foldl (fun b kn' => if kn'.2 > b.2 then kn' else b) b) ∈ b :: rest
    ∧ b.2 ≤ (rest.foldl (fun b kn' => if kn'.2 > b.2 then kn' else b) b).2
    ∧ ∀ p ∈ rest, p.2 ≤ (rest.foldl (fun b kn' => if kn'.2 > b.2 then kn' else b) b).2 := by
  induction rest generalizing b with
  | nil => exact ⟨List.mem_cons_self b [], le_refl _, by simp⟩
  | cons y rest' ih =>
    simp only [List.foldl_cons]
    obtain ⟨ihmem, ihb, ihall⟩ := ih (if y.2 > b.2 then y else b)
    by_cases hy : y.2 > b.2
    · have hseed : (if y.2 > b.2 then y else b) = y := if_pos hy
      rw [hseed] at ihmem ihb ihall ⊢
      refine ⟨List.mem_cons_of_mem b ihmem, by omega, ?_⟩
      intro p hp
      rcases List.mem_cons.mp hp with rfl | hp
      · exact ihb
      · exact ihall p hp
    · have hseed : (if y.2 > b.2 then y else b) = b := if_neg hy
      rw [hseed] at ihmem ihb ihall ⊢
      refine ⟨?_, ihb, ?_⟩
      · rcases List.mem_cons.mp ihmem with h | h
        · rw [h]
          exact List.mem_cons_self b _
        · exact List.mem_cons_of_mem b (List.mem_cons_of_mem y h)
      · intro p hp
        rcases List.mem_cons.mp hp with rfl | hp
        · omega
        · exact ihall p hp

theorem pyMaxKey_spec (cs : List (PyStr × Nat)) (k : PyStr) (h : pyMaxKey cs = some k) :
    ∃ n, (k, n) ∈ cs ∧ ∀ p ∈ cs, p.2 ≤ n := by
  rcases cs with _ | ⟨kn, rest⟩
  · simp [pyMaxKey] at h
  · rw [pyMaxKey, Option.some.injEq] at h
    obtain ⟨hmem, hb, hall⟩ := foldMax_spec rest kn
    refine ⟨(rest.foldl (fun b kn' => if kn'.2 > b.2 then kn' else b) kn).2, ?_, ?_⟩
    · rw [← h]
      exact hmem
    · intro p hp
      rcases List.mem_cons.mp hp with rfl | hp
      · exact hb
      · exact hall p hp

theorem table_mem_unique (k : PyStr) (a b : List PyStr)
    (ha : (k, a) ∈ language_extensions) (hb : (k, b) ∈ language_extensions) : a = b := by
  have hnd := table_keys_nodup
  revert ha hb hnd
  generalize language_extensions = L
  induction L with
  | nil => intro ha; simp at ha
  | cons x xs ih =>
    intro ha hb hnd
    simp only [List.map_cons, List.nodup_cons] at hnd
    rcases List.mem_cons.mp ha with rfl | ha <;> rcases List.mem_cons.mp hb with hb' | hb'
    · simpa using congrArg Prod.snd hb'.symm
    · exact absurd (List.mem_map_of_mem Prod.fst hb') (by simpa using hnd.1)
    · rw [← hb'] at hnd
      exact absurd (List.mem_map_of_mem Prod.fst ha) (by simpa using hnd.1)
    · exact ih ha hb' hnd.2

theorem langMatches_of_table (l : PyStr) (exts : List PyStr)
    (hmem : (l, exts) ∈ language_extensions) (name : PyStr) :
    langMatches l name = matchesExts exts name := by
  rw [langMatches]
  rcases hf : language_extensions.find? (fun le => decide (le.1 = l)) with _ | le
  · exfalso
    rw [List.find?_eq_none] at hf
    have h := hf (l, exts) hmem
    simp at h
  · simp only [hf]
    have hle : le ∈ language_extensions := List.mem_of_find?_eq_some hf
    have hkey : le.1 = l := by simpa using List.find?_some hf
    have hmem2 : (l, le.2) ∈ language_extensions := by
      rw [← hkey]
      simpa using hle
    have h2 : le.2 = exts := table_mem_unique l le.2 exts hmem2 hmem
    rw [h2]

theorem matchCount_eq_filter (l : PyStr) (exts : List PyStr)
    (hmem : (l, exts) ∈ language_extensions) (tree : List TreeEntry) :
    matchCount exts tree
      = (tree.filter fun f => decide (f.type = pstr "file") && langMatches l f.name).length := by
  rw [matchCount]
  congr 1
  apply List.filter_congr
  intro f _
  rw [langMatches_of_table l exts hmem f.name]

/-- Claim C8 (confirmed): language classification counts only entries of type
`file` against the fixed extension table, returns `none` exactly when no file
matches any listed extension, and otherwise returns a language whose match
count is maximal over the table. -/
theorem C8_detect_language_argmax (tree : List TreeEntry) :
    (detect_language_from_tree tree = none
      ↔ ∀ le ∈ language_extensions, matchCount le.2 tree = 0)
    ∧ (∀ l, detect_language_from_tree tree = some l →
        ∃ exts, (l, exts) ∈ language_extensions
          ∧ ∀ le ∈ language_extensions, matchCount le.2 tree ≤ matchCount exts tree) := by
  obtain ⟨hnd, hmem⟩ := extCounts_inv tree
  constructor
  · constructor
    · intro hnone le hle
      have hempty : extensionCounts tree = [] := by
        rcases hc : extensionCounts tree with _ | ⟨kn, rest⟩
        · rfl
        · simp only [detect_language_from_tree, hc] at hnone
          simp [pyMaxKey] at hnone
      have hle2 : (le.1, le.2) ∈ language_extensions := by simpa using hle
      rw [matchCount_eq_filter le.1 le.2 hle2 tree, ← extCounts_cnt tree le.1, hempty, cntOf_nil]
    · intro hall
      rcases hc : extensionCounts tree with _ | ⟨p, rest⟩
      · simp [detect_language_from_tree, hc]
      · exfalso
        have hp : p ∈ extensionCounts tree := by
          rw [hc]
          exact List.mem_cons_self p rest
        obtain ⟨⟨exts, hexts⟩, hpos⟩ := hmem p hp
        have hc1 : cntOf (extensionCounts tree) p.1 = p.2 := cnt_of_mem_nodup _ hnd p hp
        have hc2 := extCounts_cnt tree p.1
        have hc3 := matchCount_eq_filter p.1 exts hexts tree
        have hz : matchCount exts tree = 0 := hall (p.1, exts) hexts
        omega
  · intro l hsome
    rcases hc : extensionCounts tree with _ | ⟨kn, rest⟩
    · simp [detect_language_from_tree, hc] at hsome
    · have hmax : pyMaxKey (extensionCounts tree) = some l := by
        simp only [detect_language_from_tree, hc] at hsome
        simp only [List.isEmpty_cons, Bool.false_eq_true, if_false] at hsome
        rw [hc]
        exact hsome
      obtain ⟨n, hmemn, hbound⟩ := pyMaxKey_spec _ l hmax
      obtain ⟨⟨exts, hexts⟩, -⟩ := hmem (l, n) hmemn
      refine ⟨exts, hexts, ?_⟩
      intro le hle
      have hcl : cntOf (extensionCounts tree) l = n :=
        cnt_of_mem_nodup _ hnd (l, n) hmemn
      have hml : matchCount exts tree = n := by
        rw [matchCount_eq_filter l exts hexts tree, ← extCounts_cnt tree l, hcl]
      have hle2 : (le.1, le.2) ∈ language_extensions := by simpa using hle
      have hmle : matchCount le.2 tree = cntOf (extensionCounts tree) le.1 := by
        rw [matchCount_eq_filter le.1 le.2 hle2 tree, ← extCounts_cnt tree le.1]
      rw [hmle, hml]
      rcases hfc : (extensionCounts tree).find? (fun kn => decide (kn.1 = le.1)) with _ | kn2
      · simp only [cntOf, hfc]
        omega
      · have hkn2 : kn2 ∈ extensionCounts tree := List.mem_of_find?_eq_some hfc
        have hb := hbound kn2 hkn2
        simp only [cntOf, hfc]
        exact hb

theorem C8_detect_language_witness :
    (detect_language_from_tree
        [⟨pstr "file", pstr "a.py"⟩, ⟨pstr "file", pstr "b.js"⟩, ⟨pstr "file", pstr "c.js"⟩]
      = some (pstr "javascript"))
    ∧ (∃ exts, (pstr "javascript", exts) ∈ language_extensions
        ∧ ∀ le ∈ language_extensions,
            matchCount le.2
              [⟨pstr "file", pstr "a.py"⟩, ⟨pstr "file", pstr "b.js"⟩, ⟨pstr "file", pstr "c.js"⟩]
            ≤ matchCount exts
              [⟨pstr "file", pstr "a.py"⟩, ⟨pstr "file", pstr "b.js"⟩,
                ⟨pstr "file", pstr "c.js"⟩]) :=
  ⟨by decide,
    (C8_detect_language_argmax
      [⟨pstr "file", pstr "a.py"⟩, ⟨pstr "file", pstr "b.js"⟩, ⟨pstr "file", pstr "c.js"⟩]).2
      (pstr "javascript") (by decide)⟩
